import Mathlib

/-!
# The fruit-trace contract (`contract/go/fabcar.go`)

A shallow embedding of the five contract operations (`InitLedger`, `Createfruit`,
`Queryfruit`, `QueryAllfruits`, `ChangefruitOwner`) together with the two collaborators
they call: the key-value world state of the ledger and the JSON codec.

Conventions of the embedding:

* a Go `string` and a Go `[]byte` are sequences of bytes (`Bytes`), valid UTF-8 or not; a
  string literal of the source is the UTF-8 encoding of its text (`str`);
* a Go `error` is an `Option` (`none` is Go's `nil`); a call that returns either a value or
  an error is an `Except`; the codec returns its value together with its error;
* the world state is passed explicitly: an operation that writes returns the state it
  leaves together with its error.
-/

namespace FabCar

/-! ## Bytes and UTF-8 -/

/-- A byte: a natural number below 256. -/
structure Byte where
  toNat : Nat
  lt : toNat < 256
  deriving DecidableEq, Repr

/-- The byte of a number, modulo 256. -/
def Byte.ofNat (n : Nat) : Byte := ⟨n % 256, Nat.mod_lt n (by decide)⟩

/-- The byte of an ASCII character. -/
def ascii (c : Char) : Byte := Byte.ofNat c.toNat

/-- A Go `string` or `[]byte`. -/
abbrev Bytes := List Byte

/-- Go's `utf8.RuneError`, the replacement character U+FFFD. -/
def utf8.RuneError : Nat := 0xFFFD

/-- Go's `utf8.EncodeRune`: the UTF-8 encoding of a rune; a rune that is no Unicode scalar
value (a surrogate, or above U+10FFFF) is encoded as U+FFFD. -/
def utf8.EncodeRune (r : Nat) : Bytes :=
  if r < 0x80 then [Byte.ofNat r]
  else if r < 0x800 then [Byte.ofNat (0xC0 + r / 64), Byte.ofNat (0x80 + r % 64)]
  else if 0x10FFFF < r ∨ (0xD800 ≤ r ∧ r ≤ 0xDFFF) then
    [Byte.ofNat 0xEF, Byte.ofNat 0xBF, Byte.ofNat 0xBD]
  else if r < 0x10000 then
    [Byte.ofNat (0xE0 + r / 4096), Byte.ofNat (0x80 + r / 64 % 64), Byte.ofNat (0x80 + r % 64)]
  else
    [Byte.ofNat (0xF0 + r / 262144), Byte.ofNat (0x80 + r / 4096 % 64),
     Byte.ofNat (0x80 + r / 64 % 64), Byte.ofNat (0x80 + r % 64)]

/-- A continuation byte, `0x80` to `0xBF`. -/
def utf8.isCont (b : Byte) : Bool := 0x80 ≤ b.toNat && b.toNat ≤ 0xBF

/-- Lowest second byte Go's decoder accepts after a lead byte. -/
def utf8.acceptLo (x : Nat) : Nat :=
  if x = 0xE0 then 0xA0 else if x = 0xF0 then 0x90 else 0x80

/-- Highest second byte Go's decoder accepts after a lead byte. -/
def utf8.acceptHi (x : Nat) : Nat :=
  if x = 0xED then 0x9F else if x = 0xF4 then 0x8F else 0xBF

/-- Go's `utf8.DecodeRune`: the first rune of a byte sequence and the number of bytes of
its encoding. A sequence that does not start with a valid shortest encoding of a Unicode
scalar value gives `(RuneError, 1)`; the empty sequence gives `(RuneError, 0)`. -/
def utf8.DecodeRune : Bytes → Nat × Nat
  | [] => (utf8.RuneError, 0)
  | p0 :: rest =>
    if p0.toNat < 0x80 then (p0.toNat, 1)
    else if 0xC2 ≤ p0.toNat ∧ p0.toNat ≤ 0xDF then
      match rest with
      | b1 :: _ =>
        if utf8.isCont b1 then (p0.toNat % 32 * 64 + b1.toNat % 64, 2)
        else (utf8.RuneError, 1)
      | _ => (utf8.RuneError, 1)
    else if 0xE0 ≤ p0.toNat ∧ p0.toNat ≤ 0xEF then
      match rest with
      | b1 :: b2 :: _ =>
        if utf8.acceptLo p0.toNat ≤ b1.toNat ∧ b1.toNat ≤ utf8.acceptHi p0.toNat ∧
            utf8.isCont b2 then
          ((p0.toNat % 16 * 64 + b1.toNat % 64) * 64 + b2.toNat % 64, 3)
        else (utf8.RuneError, 1)
      | _ => (utf8.RuneError, 1)
    else if 0xF0 ≤ p0.toNat ∧ p0.toNat ≤ 0xF4 then
      match rest with
      | b1 :: b2 :: b3 :: _ =>
        if utf8.acceptLo p0.toNat ≤ b1.toNat ∧ b1.toNat ≤ utf8.acceptHi p0.toNat ∧
            utf8.isCont b2 ∧ utf8.isCont b3 then
          (((p0.toNat % 8 * 64 + b1.toNat % 64) * 64 + b2.toNat % 64) * 64 + b3.toNat % 64, 4)
        else (utf8.RuneError, 1)
      | _ => (utf8.RuneError, 1)
    else (utf8.RuneError, 1)

/-- The bytes of a text: the UTF-8 encoding of its characters, one after the other. A
string literal of the Go source denotes these bytes, and a byte sequence is valid UTF-8
exactly when it is the `str` of a text. -/
def str (s : String) : Bytes :=
  s.data.flatMap fun c => utf8.EncodeRune c.toNat

/-- Makes a byte sequence valid UTF-8 the way `encoding/json` does when it reads a string:
every byte that does not start a valid encoding is replaced by the encoding of U+FFFD, a
valid encoding is kept. `skip` counts the bytes of the current encoding still to pass
over. -/
def utf8.coerce : Nat → Bytes → Bytes
  | _, [] => []
  | skip + 1, _ :: rest => utf8.coerce skip rest
  | 0, b :: rest =>
    if b.toNat < 0x80 then b :: utf8.coerce 0 rest
    else
      utf8.EncodeRune (utf8.DecodeRune (b :: rest)).1 ++
        utf8.coerce ((utf8.DecodeRune (b :: rest)).2 - 1) rest

/-- Valid UTF-8 as `utf8.coerce` sees it: the bytes are kept, whatever follows them. -/
def utf8.Stable (a : Bytes) : Prop :=
  ∀ X : Bytes, utf8.coerce 0 (a ++ X) = a ++ utf8.coerce 0 X

/-! ## Key order -/

theorem Byte.ext {a b : Byte} (h : a.toNat = b.toNat) : a = b := by
  cases a; cases b; cases h; rfl

/-- Lexicographic comparison of two byte sequences, byte by byte, a proper beginning of a
sequence being smaller than the sequence: the order of Go's `<` on strings. -/
def ltBytes : Bytes → Bytes → Bool
  | [], [] => false
  | [], _ :: _ => true
  | _ :: _, [] => false
  | a :: as, b :: bs =>
    if a.toNat < b.toNat then true
    else if b.toNat < a.toNat then false
    else ltBytes as bs

/-- Strict lexicographic order on keys. -/
def keyLt (a b : Bytes) : Bool := ltBytes a b

/-- Non-strict lexicographic order on keys. -/
def keyLe (a b : Bytes) : Bool := !keyLt b a

theorem ltBytes_irrefl (a : Bytes) : ltBytes a a = false := by
  induction a with
  | nil => rfl
  | cons c cs ih => simp [ltBytes, ih]

theorem ltBytes_trans : ∀ (a b c : Bytes),
    ltBytes a b = true → ltBytes b c = true → ltBytes a c = true
  | [], [], _, h, _ => by simp [ltBytes] at h
  | [], _ :: _, [], _, h => by simp [ltBytes] at h
  | [], _ :: _, _ :: _, _, _ => by simp [ltBytes]
  | _ :: _, [], _, h, _ => by simp [ltBytes] at h
  | _ :: _, _ :: _, [], _, h => by simp [ltBytes] at h
  | x :: xs, y :: ys, z :: zs, h1, h2 => by
    simp only [ltBytes] at h1 h2 ⊢
    by_cases hxy : x.toNat < y.toNat
    · by_cases hyz : y.toNat < z.toNat
      · have : x.toNat < z.toNat := by omega
        simp [this]
      · by_cases hzy : z.toNat < y.toNat
        · simp [hyz, hzy] at h2
        · have : x.toNat < z.toNat := by omega
          simp [this]
    · by_cases hyx : y.toNat < x.toNat
      · simp [hxy, hyx] at h1
      · simp only [hxy, hyx, if_false] at h1
        by_cases hyz : y.toNat < z.toNat
        · have : x.toNat < z.toNat := by omega
          simp [this]
        · by_cases hzy : z.toNat < y.toNat
          · simp [hyz, hzy] at h2
          · simp only [hyz, hzy, if_false] at h2
            have h3 : ¬ x.toNat < z.toNat := by omega
            have h4 : ¬ z.toNat < x.toNat := by omega
            simp only [h3, h4, if_false]
            exact ltBytes_trans xs ys zs h1 h2

theorem ltBytes_total : ∀ (a b : Bytes),
    ltBytes a b = false → ltBytes b a = false → a = b
  | [], [], _, _ => rfl
  | [], _ :: _, h, _ => by simp [ltBytes] at h
  | _ :: _, [], _, h => by simp [ltBytes] at h
  | x :: xs, y :: ys, h1, h2 => by
    simp only [ltBytes] at h1 h2
    by_cases hxy : x.toNat < y.toNat
    · simp [hxy] at h1
    · by_cases hyx : y.toNat < x.toNat
      · simp [hyx] at h2
      · simp only [hxy, hyx, if_false] at h1 h2
        have hc : x = y := Byte.ext (by omega)
        rw [hc, ltBytes_total xs ys h1 h2]

theorem keyLt_irrefl (a : Bytes) : keyLt a a = false := ltBytes_irrefl _

theorem keyLt_trans {a b c : Bytes} (h1 : keyLt a b = true) (h2 : keyLt b c = true) :
    keyLt a c = true := ltBytes_trans _ _ _ h1 h2

theorem keyLt_total {a b : Bytes} (h1 : keyLt a b = false) (h2 : keyLt b a = false) :
    a = b := ltBytes_total _ _ h1 h2

theorem keyLt_ne {a b : Bytes} (h : keyLt a b = true) : a ≠ b := by
  intro he
  rw [he, keyLt_irrefl] at h
  exact Bool.noConfusion h

/-! ## The world state -/

/-- Modelled from the spec: the error kinds of the design (§7). -/
inductive ErrorKind
  | InvalidKey
  | NotFound
  | DecodeError
  | StorageFull
  | CursorClosed
  deriving DecidableEq, Repr

/-- Text of an error kind, what Go's `err.Error()` gives for an error of the world state. -/
def ErrorKind.Error : ErrorKind → Bytes
  | .InvalidKey => str "InvalidKey"
  | .NotFound => str "NotFound"
  | .DecodeError => str "DecodeError"
  | .StorageFull => str "StorageFull"
  | .CursorClosed => str "CursorClosed"

/-- A Go `error` as the contract returns it: either the error of a world state call
passed through unchanged, or a message built with `fmt.Errorf`. -/
inductive GoError
  | host (kind : ErrorKind)
  | errorf (message : Bytes)
  deriving DecidableEq, Repr

/-- Equality of Go call results is decidable. -/
instance instDecidableEqExcept {ε α : Type} [DecidableEq ε] [DecidableEq α] :
    DecidableEq (Except ε α)
  | .ok a, .ok b =>
    if h : a = b then isTrue (congrArg Except.ok h)
    else isFalse (fun h1 => h (Except.ok.inj h1))
  | .error a, .error b =>
    if h : a = b then isTrue (congrArg Except.error h)
    else isFalse (fun h1 => h (Except.error.inj h1))
  | .ok _, .error _ => isFalse (fun h => Except.noConfusion h)
  | .error _, .ok _ => isFalse (fun h => Except.noConfusion h)

/-- Entries in strictly ascending key order (so no key occurs twice). -/
def Ascending (es : List (Bytes × Bytes)) : Prop :=
  es.Pairwise (fun a b => keyLt a.1 b.1 = true)

/-- Modelled from the spec: the world state the host supplies (§4.1, §4.2, §6), a durable
map from keys to stored bytes whose keys are kept in lexicographic order. The store never
holds the empty key, which `put` refuses. Versions and capacity are not modelled: no
operation of the contract reads a version, and the store is unbounded. -/
structure WorldState where
  entries : List (Bytes × Bytes)
  ascending : Ascending entries
  keysNonEmpty : ∀ e ∈ entries, e.1 ≠ []

/-- Ordered insertion of a binding: a binding already at the key is replaced. -/
def insertEntry (k v : Bytes) : List (Bytes × Bytes) → List (Bytes × Bytes)
  | [] => [(k, v)]
  | e :: rest =>
    if keyLt k e.1 then (k, v) :: e :: rest
    else if keyLt e.1 k then e :: insertEntry k v rest
    else (k, v) :: rest

/-- First value bound to a key. -/
def lookupEntry (k : Bytes) : List (Bytes × Bytes) → Option Bytes
  | [] => none
  | e :: rest => if e.1 = k then some e.2 else lookupEntry k rest

theorem mem_insertEntry {k v : Bytes} {es : List (Bytes × Bytes)} {e : Bytes × Bytes}
    (h : e ∈ insertEntry k v es) : e = (k, v) ∨ e ∈ es := by
  induction es with
  | nil => simpa [insertEntry] using h
  | cons x rest ih =>
    simp only [insertEntry] at h
    split at h
    · simpa using h
    · split at h
      · rcases List.mem_cons.1 h with h | h
        · exact Or.inr (h ▸ List.mem_cons_self _ _)
        · rcases ih h with h | h
          · exact Or.inl h
          · exact Or.inr (List.mem_cons_of_mem _ h)
      · rcases List.mem_cons.1 h with h | h
        · exact Or.inl h
        · exact Or.inr (List.mem_cons_of_mem _ h)

theorem ascending_insertEntry (k v : Bytes) {es : List (Bytes × Bytes)}
    (h : Ascending es) : Ascending (insertEntry k v es) := by
  induction es with
  | nil => simp [insertEntry, Ascending]
  | cons x rest ih =>
    have hx := List.pairwise_cons.1 h
    simp only [insertEntry]
    by_cases h1 : keyLt k x.1 = true
    · rw [if_pos h1]
      refine List.pairwise_cons.2 ⟨?_, h⟩
      intro e he
      rcases List.mem_cons.1 he with he | he
      · rw [he]; exact h1
      · exact keyLt_trans h1 (hx.1 e he)
    · rw [if_neg h1]
      by_cases h2 : keyLt x.1 k = true
      · rw [if_pos h2]
        refine List.pairwise_cons.2 ⟨?_, ih hx.2⟩
        intro e he
        rcases mem_insertEntry he with he | he
        · rw [he]; exact h2
        · exact hx.1 e he
      · rw [if_neg h2]
        have hk : k = x.1 := keyLt_total (by simpa using h1) (by simpa using h2)
        refine List.pairwise_cons.2 ⟨?_, hx.2⟩
        intro e he
        show keyLt k e.1 = true
        rw [hk]
        exact hx.1 e he

theorem keysNonEmpty_insertEntry {k : Bytes} (v : Bytes) {es : List (Bytes × Bytes)}
    (hk : k ≠ []) (h : ∀ e ∈ es, e.1 ≠ []) : ∀ e ∈ insertEntry k v es, e.1 ≠ [] := by
  intro e he
  rcases mem_insertEntry he with he | he
  · rw [he]; exact hk
  · exact h e he

/-- Modelled from the spec: the world state of a fresh ledger. -/
def WorldState.empty : WorldState :=
  ⟨[], List.Pairwise.nil, fun _ h => absurd h (List.not_mem_nil _)⟩

/-- Modelled from the spec: `put(key, bytes)` of the world state (§4.2), Fabric's
`PutState`. It writes unconditionally (last writer wins) and fails, leaving the state as
it was, only for the empty key. The result is the state left and Go's `error`. -/
def PutState (ws : WorldState) (key value : Bytes) : WorldState × Option ErrorKind :=
  if h : key = [] then (ws, some ErrorKind.InvalidKey)
  else
    (⟨insertEntry key value ws.entries, ascending_insertEntry key value ws.ascending,
      keysNonEmpty_insertEntry value h ws.keysNonEmpty⟩, none)

/-- Modelled from the spec: `get(key)` of the world state (§4.2), Fabric's `GetState`:
the stored bytes, or `none` (Go's `nil` slice) for an absent key. A value that is present
but empty is `some []`. The call itself cannot fail in this model. -/
def GetState (ws : WorldState) (key : Bytes) : Except ErrorKind (Option Bytes) :=
  .ok (lookupEntry key ws.entries)

/-- Modelled from the spec: `rangeScan(start, end)` of the world state (§4.1, §4.2),
Fabric's `GetStateByRange`: the entries whose key lies in the half-open range
`[startKey, endKey)`, in ascending key order. The result stands for the iterator: the
list holds what its calls of `Next` return, one after the other, until `HasNext` is false.
Neither opening the scan nor a call of `Next` fails in this model. -/
def GetStateByRange (ws : WorldState) (startKey endKey : Bytes) :
    Except ErrorKind (List (Except ErrorKind (Bytes × Bytes))) :=
  .ok ((ws.entries.filter fun e => keyLe startKey e.1 && keyLt e.1 endKey).map Except.ok)

/-! ## Records and the JSON codec -/

/-- The `Fruit` struct: five string fields. -/
structure Fruit where
  SerialNum : Bytes
  Name : Bytes
  Origin : Bytes
  Date : Bytes
  Owner : Bytes
  deriving DecidableEq, Repr

/-- Go's zero value of `Fruit`, what `new(Fruit)` points to. -/
def Fruit.zero : Fruit := ⟨[], [], [], [], []⟩

/-- The `QueryResult` struct; the pointer `Record *Fruit` is modelled by the record it
points to (it is never nil where the contract builds one). -/
structure QueryResult where
  Key : Bytes
  Record : Fruit
  deriving DecidableEq, Repr

/-- The fields of `Fruit`. -/
inductive Field
  | SerialNum | Name | Origin | Date | Owner
  deriving DecidableEq, Repr

/-- Reads a field of a record. -/
def Fruit.get (f : Fruit) : Field → Bytes
  | .SerialNum => f.SerialNum
  | .Name => f.Name
  | .Origin => f.Origin
  | .Date => f.Date
  | .Owner => f.Owner

/-- Assigns a field of a record. -/
def Fruit.set (f : Fruit) : Field → Bytes → Fruit
  | .SerialNum, s => { f with SerialNum := s }
  | .Name, s => { f with Name := s }
  | .Origin, s => { f with Origin := s }
  | .Date, s => { f with Date := s }
  | .Owner, s => { f with Owner := s }

/-- The declaration of `Fruit` as the source writes it: each field with its Go name and
its struct tag. The tag of `Owner` lacks its closing quote in the source. -/
def fruitStruct : List (Field × String × String) :=
  [(.SerialNum, "SerialNum", "json:\"SerialNum\""),
   (.Name, "Name", "json:\"Name\""),
   (.Origin, "Origin", "json:\"Origin\""),
   (.Date, "Date", "json:\"Date\""),
   (.Owner, "Owner", "json:\"Owner")]

/-- Puts a character in front of a scanned tag value. -/
def consChar (c : Char) : Option (List Char × List Char) → Option (List Char × List Char)
  | some (s, rest) => some (c :: s, rest)
  | none => none

/-- The quoted value of a struct tag, read up to its closing quote; a backslash takes the
character after it along. Fails when the closing quote is missing. -/
def scanQuoted : List Char → Option (List Char × List Char)
  | [] => none
  | c :: rest =>
    if c = '"' then some ([], rest)
    else if c = '\\' then
      match rest with
      | [] => none
      | e :: rest1 => consChar c (consChar e (scanQuoted rest1))
    else consChar c (scanQuoted rest)

/-- Characters a struct tag key may consist of. -/
def isTagNameChar (c : Char) : Bool :=
  32 < c.toNat && c != ':' && c != '"' && c.toNat != 127

/-- The text of a quoted tag value. Escape sequences are not interpreted: a value holding
a backslash or a line break counts as malformed (no tag of this program has one). -/
def unquoteTag (q : List Char) : Option (List Char) :=
  if q.all (fun c => c != '\\' && c != '\n') then some q else none

/-- Go's `reflect.StructTag.Lookup`: the value a conventional tag string gives a key;
`none` when the key is absent or the tag is malformed at or before it. -/
def tagLookup (key : List Char) : Nat → List Char → Option (List Char)
  | 0, _ => none
  | fuel + 1, tag =>
    let tag1 := tag.dropWhile (fun c => c = ' ')
    let name := tag1.takeWhile isTagNameChar
    match tag1.dropWhile isTagNameChar with
    | colon :: q :: rest =>
      if name ≠ [] ∧ colon = ':' ∧ q = '"' then
        match scanQuoted rest with
        | some (value, rest1) =>
          if key = name then unquoteTag value else tagLookup key fuel rest1
        | none => none
      else none
    | _ => none

/-- Names `encoding/json` accepts from a tag (letters and digits are the ASCII ones here). -/
def isValidTag (name : List Char) : Bool :=
  name ≠ [] &&
    name.all (fun c => "!#$%&()*+-./:;<=>?@[]^_\x7b|\x7d~ ".data.contains c || c.isAlphanum)

/-- The name `encoding/json` gives a struct field on the wire: the name in its `json` tag
(up to a comma), or the Go field name when the tag gives none. -/
def jsonName (goName tag : String) : List Char :=
  match tagLookup "json".data (tag.length + 1) tag.data with
  | some value =>
    let name := value.takeWhile (fun c => c != ',')
    if isValidTag name then name else goName.data
  | none => goName.data

/-- The fields of `Fruit` with their wire names, in declaration order. -/
def fruitFields : List (Field × Bytes) :=
  fruitStruct.map fun p => (p.1, str ⟨jsonName p.2.1 p.2.2⟩)

/-- Lower-case hexadecimal digit. -/
def hexDigit (n : Nat) : Byte :=
  if n < 10 then Byte.ofNat (48 + n) else Byte.ofNat (87 + n)

/-- How `encoding/json` writes one ASCII byte of a string (HTML escaping on, as
`json.Marshal` has it): quote and backslash behind a backslash, line feed, carriage return
and tab in short form, other control characters and `<`, `>`, `&` as `\u00XX`, every other
byte as it is. -/
def escapeASCII (b : Byte) : Bytes :=
  if b.toNat = '"'.toNat ∨ b.toNat = '\\'.toNat then [ascii '\\', b]
  else if b.toNat = '\n'.toNat then [ascii '\\', ascii 'n']
  else if b.toNat = '\r'.toNat then [ascii '\\', ascii 'r']
  else if b.toNat = '\t'.toNat then [ascii '\\', ascii 't']
  else if b.toNat < 32 ∨ b.toNat = '<'.toNat ∨ b.toNat = '>'.toNat ∨ b.toNat = '&'.toNat then
    [ascii '\\', ascii 'u', ascii '0', ascii '0', hexDigit (b.toNat / 16),
     hexDigit (b.toNat % 16)]
  else [b]

/-- The contents of a JSON string literal as `encoding/json` writes them. An ASCII byte is
written by `escapeASCII`. At any other byte the first rune is decoded: a byte that starts
no valid encoding is written `\ufffd` (so the bytes of a string that is not valid UTF-8
are not kept), the line and paragraph separators U+2028 and U+2029 are written `\u2028`
and `\u2029`, and every other rune is copied byte for byte. `skip` counts the bytes of the
rune just written that the loop still has to pass over (Go's `i += size`). -/
def escapeBytes : Nat → Bytes → Bytes
  | _, [] => []
  | skip + 1, _ :: rest => escapeBytes skip rest
  | 0, b :: rest =>
    if b.toNat < 0x80 then escapeASCII b ++ escapeBytes 0 rest
    else if (utf8.DecodeRune (b :: rest)).1 = utf8.RuneError ∧
        (utf8.DecodeRune (b :: rest)).2 = 1 then
      [ascii '\\', ascii 'u', ascii 'f', ascii 'f', ascii 'f', ascii 'd'] ++
        escapeBytes 0 rest
    else if (utf8.DecodeRune (b :: rest)).1 = 0x2028 ∨
        (utf8.DecodeRune (b :: rest)).1 = 0x2029 then
      [ascii '\\', ascii 'u', ascii '2', ascii '0', ascii '2',
        hexDigit ((utf8.DecodeRune (b :: rest)).1 % 16)] ++
        escapeBytes ((utf8.DecodeRune (b :: rest)).2 - 1) rest
    else
      (b :: rest).take (utf8.DecodeRune (b :: rest)).2 ++
        escapeBytes ((utf8.DecodeRune (b :: rest)).2 - 1) rest

/-- A JSON string literal. -/
def quote (s : Bytes) : Bytes := ascii '"' :: (escapeBytes 0 s ++ [ascii '"'])

/-- The members of the JSON object of a record: `"name":"value"`, separated by commas. -/
def encodeMembers (f : Fruit) : List (Field × Bytes) → Bytes
  | [] => []
  | [p] => quote p.2 ++ ascii ':' :: quote (f.get p.1)
  | p :: q :: rest =>
    quote p.2 ++ ascii ':' :: quote (f.get p.1) ++ ascii ',' :: encodeMembers f (q :: rest)

/-- Errors of the codec. -/
inductive JsonError
  | SyntaxError
  | UnmarshalTypeError
  deriving DecidableEq, Repr

/-- Modelled from the spec: the codec from a record to bytes (§6), Go's `json.Marshal` on
a `Fruit`: a JSON object with the five named fields in declaration order. Encoding a
struct of strings has no error case, so the error of the result is always `none`. -/
def json.Marshal (f : Fruit) : Bytes × Option JsonError :=
  (ascii '{' :: (encodeMembers f fruitFields ++ [ascii '}']), none)

/-- The text `json.Marshal` writes for a record, spelled out. -/
def marshalText (f : Fruit) : Bytes :=
  ascii '{' :: ascii '"' :: (escapeBytes 0 (str "SerialNum") ++
    ascii '"' :: ascii ':' :: ascii '"' :: (escapeBytes 0 f.SerialNum ++
    ascii '"' :: ascii ',' :: ascii '"' :: (escapeBytes 0 (str "Name") ++
    ascii '"' :: ascii ':' :: ascii '"' :: (escapeBytes 0 f.Name ++
    ascii '"' :: ascii ',' :: ascii '"' :: (escapeBytes 0 (str "Origin") ++
    ascii '"' :: ascii ':' :: ascii '"' :: (escapeBytes 0 f.Origin ++
    ascii '"' :: ascii ',' :: ascii '"' :: (escapeBytes 0 (str "Date") ++
    ascii '"' :: ascii ':' :: ascii '"' :: (escapeBytes 0 f.Date ++
    ascii '"' :: ascii ',' :: ascii '"' :: (escapeBytes 0 (str "Owner") ++
    ascii '"' :: ascii ':' :: ascii '"' :: (escapeBytes 0 f.Owner ++
    ascii '"' :: ascii '}' :: []))))))))))

/-- A parsed JSON value. The digits of a number are not kept: a number stored into a
string field is a type error whatever it is. -/
inductive JSON
  | null
  | bool (b : Bool)
  | number
  | string (s : Bytes)
  | array (elems : List JSON)
  | object (members : List (Bytes × JSON))
  deriving Repr

/-- A white space byte of JSON. -/
def isSpace (c : Byte) : Bool :=
  c.toNat = ' '.toNat || c.toNat = '\t'.toNat || c.toNat = '\r'.toNat || c.toNat = '\n'.toNat

/-- Skips JSON white space. -/
def skipSpace : Bytes → Bytes
  | [] => []
  | c :: cs => if isSpace c then skipSpace cs else c :: cs

/-- Value of a hexadecimal digit, either case. -/
def hexVal (c : Byte) : Option Nat :=
  if 48 ≤ c.toNat ∧ c.toNat ≤ 57 then some (c.toNat - 48)
  else if 97 ≤ c.toNat ∧ c.toNat ≤ 102 then some (c.toNat - 87)
  else if 65 ≤ c.toNat ∧ c.toNat ≤ 70 then some (c.toNat - 55)
  else none

/-- The code unit written by the four hexadecimal digits of a `\u` escape. -/
def getu4 (a b c d : Byte) : Option Nat :=
  match hexVal a, hexVal b, hexVal c, hexVal d with
  | some x, some y, some z, some w => some (((x * 16 + y) * 16 + z) * 16 + w)
  | _, _, _, _ => none

/-- The byte a one-letter escape stands for. -/
def simpleEscape (c : Byte) : Option Byte :=
  if c.toNat = '"'.toNat ∨ c.toNat = '\\'.toNat ∨ c.toNat = '/'.toNat then some c
  else if c.toNat = 'b'.toNat then some (Byte.ofNat 8)
  else if c.toNat = 'f'.toNat then some (Byte.ofNat 12)
  else if c.toNat = 'n'.toNat then some (ascii '\n')
  else if c.toNat = 'r'.toNat then some (ascii '\r')
  else if c.toNat = 't'.toNat then some (ascii '\t')
  else none

/-- Puts bytes in front of a scanned string. -/
def consBytes (p : Bytes) : Option (Bytes × Bytes) → Option (Bytes × Bytes)
  | some (s, rest) => some (p ++ s, rest)
  | none => none

/-- Puts the replacement character owed for an unpaired high surrogate in front. -/
def flushPending (pending : Option Nat) (r : Option (Bytes × Bytes)) :
    Option (Bytes × Bytes) :=
  match pending with
  | none => r
  | some _ => consBytes (utf8.EncodeRune utf8.RuneError) r

/-- Reads a JSON string literal after its opening quote: the bytes it denotes and the
input after the closing quote. Control characters and unknown escapes are syntax errors.
A `\u` escape denotes the UTF-8 encoding of its rune; a `\u` escape of a high surrogate
followed at once by a `\u` escape of a low surrogate denotes the rune of the pair; any
other surrogate escape denotes U+FFFD. Bytes outside ASCII are made valid UTF-8: the first
rune is decoded and encoded again, so a byte that starts no valid encoding becomes U+FFFD.
`pending` holds a high surrogate just read that still waits for its partner; `skip` counts
the bytes of the rune just decoded that are still to be passed over. -/
def scanString : Option Nat → Nat → Bytes → Option (Bytes × Bytes)
  | _, _, [] => none
  | pending, skip + 1, _ :: rest => scanString pending skip rest
  | pending, 0, c :: rest =>
    if c.toNat = '"'.toNat then flushPending pending (some ([], rest))
    else if c.toNat = '\\'.toNat then
      match rest with
      | [] => none
      | e :: rest1 =>
        if e.toNat = 'u'.toNat then
          match rest1 with
          | a :: b :: c :: d :: rest2 =>
            match getu4 a b c d with
            | none => none
            | some r =>
              if 0xDC00 ≤ r ∧ r < 0xE000 then
                match pending with
                | some hi =>
                  consBytes (utf8.EncodeRune (0x10000 + (hi - 0xD800) * 1024 + (r - 0xDC00)))
                    (scanString none 0 rest2)
                | none => consBytes (utf8.EncodeRune utf8.RuneError) (scanString none 0 rest2)
              else if 0xD800 ≤ r ∧ r < 0xDC00 then
                flushPending pending (scanString (some r) 0 rest2)
              else flushPending pending (consBytes (utf8.EncodeRune r) (scanString none 0 rest2))
          | _ => none
        else
          match simpleEscape e with
          | some x => flushPending pending (consBytes [x] (scanString none 0 rest1))
          | none => none
    else if c.toNat < 32 then none
    else if c.toNat < 0x80 then flushPending pending (consBytes [c] (scanString none 0 rest))
    else
      flushPending pending
        (consBytes (utf8.EncodeRune (utf8.DecodeRune (c :: rest)).1)
          (scanString none ((utf8.DecodeRune (c :: rest)).2 - 1) rest))

/-- A decimal digit. -/
def isDigit (c : Byte) : Bool := 48 ≤ c.toNat && c.toNat ≤ 57

/-- One digit or more. -/
def scanDigits : Bytes → Option Bytes
  | [] => none
  | c :: rest => if isDigit c then some (rest.dropWhile isDigit) else none

/-- The optional exponent of a number. -/
def scanExponent (cs : Bytes) : Option Bytes :=
  match cs with
  | [] => some cs
  | e :: rest =>
    if e.toNat = 'e'.toNat ∨ e.toNat = 'E'.toNat then
      match rest with
      | [] => none
      | s :: rest1 =>
        if s.toNat = '+'.toNat ∨ s.toNat = '-'.toNat then scanDigits rest1 else scanDigits rest
    else some cs

/-- The optional fraction of a number, then its exponent. -/
def scanFraction (cs : Bytes) : Option Bytes :=
  match cs with
  | [] => some cs
  | p :: rest =>
    if p.toNat = '.'.toNat then
      match scanDigits rest with
      | some rest1 => scanExponent rest1
      | none => none
    else scanExponent cs

/-- The integer part of a number (a single `0`, or digits not starting with `0`), then
the rest of the number. -/
def scanInteger : Bytes → Option Bytes
  | [] => none
  | c :: rest =>
    if c.toNat = '0'.toNat then scanFraction rest
    else if isDigit c then scanFraction (rest.dropWhile isDigit)
    else none

/-- Reads a JSON number; gives the input after it. -/
def scanNumber : Bytes → Option Bytes
  | [] => none
  | c :: rest => if c.toNat = '-'.toNat then scanInteger rest else scanInteger (c :: rest)

/-- Reads the rest of a literal name. -/
def scanLiteral (word : Bytes) (cs : Bytes) : Option Bytes :=
  if cs.take word.length = word then some (cs.drop word.length) else none

/-- Deepest nesting of arrays and objects `encoding/json` accepts. -/
def maxNestingDepth : Nat := 10000

mutual
/-- Parses one JSON value at the head of the input (no leading white space); gives the
value and the input after it, `none` on a syntax error. `depth` counts the arrays and
objects open around the value; the first argument bounds the recursion. -/
def parseValue : Nat → Nat → Bytes → Option (JSON × Bytes)
  | 0, _, _ => none
  | _ + 1, _, [] => none
  | fuel + 1, depth, c :: rest =>
    if c.toNat = '"'.toNat then
      match scanString none 0 rest with
      | some (s, rest1) => some (JSON.string s, rest1)
      | none => none
    else if c.toNat = '{'.toNat then
      if depth < maxNestingDepth then
        match skipSpace rest with
        | [] => none
        | d :: rest1 =>
          if d.toNat = '}'.toNat then some (JSON.object [], rest1)
          else
            match parseMembers fuel (depth + 1) (d :: rest1) with
            | some (ms, rest2) => some (JSON.object ms, rest2)
            | none => none
      else none
    else if c.toNat = '['.toNat then
      if depth < maxNestingDepth then
        match skipSpace rest with
        | [] => none
        | d :: rest1 =>
          if d.toNat = ']'.toNat then some (JSON.array [], rest1)
          else
            match parseValue fuel (depth + 1) (d :: rest1) with
            | none => none
            | some (v, rest2) =>
              match parseElements fuel (depth + 1) rest2 with
              | some (vs, rest3) => some (JSON.array (v :: vs), rest3)
              | none => none
      else none
    else if c.toNat = 't'.toNat then
      match scanLiteral (str "rue") rest with
      | some rest1 => some (JSON.bool true, rest1)
      | none => none
    else if c.toNat = 'f'.toNat then
      match scanLiteral (str "alse") rest with
      | some rest1 => some (JSON.bool false, rest1)
      | none => none
    else if c.toNat = 'n'.toNat then
      match scanLiteral (str "ull") rest with
      | some rest1 => some (JSON.null, rest1)
      | none => none
    else
      match scanNumber (c :: rest) with
      | some rest1 => some (JSON.number, rest1)
      | none => none
/-- Parses the members of an object from its first key to its closing brace. -/
def parseMembers : Nat → Nat → Bytes → Option (List (Bytes × JSON) × Bytes)
  | 0, _, _ => none
  | _ + 1, _, [] => none
  | fuel + 1, depth, c :: rest =>
    if c.toNat = '"'.toNat then
      match scanString none 0 rest with
      | none => none
      | some (key, rest1) =>
        match skipSpace rest1 with
        | [] => none
        | colon :: rest2 =>
          if colon.toNat = ':'.toNat then
            match parseValue fuel depth (skipSpace rest2) with
            | none => none
            | some (v, rest3) =>
              match skipSpace rest3 with
              | [] => none
              | d :: rest4 =>
                if d.toNat = '}'.toNat then some ([(key, v)], rest4)
                else if d.toNat = ','.toNat then
                  match parseMembers fuel depth (skipSpace rest4) with
                  | some (ms, rest5) => some ((key, v) :: ms, rest5)
                  | none => none
                else none
          else none
    else none
/-- Parses what follows an element of an array: the closing bracket, or a comma, the next
element and what follows that. -/
def parseElements : Nat → Nat → Bytes → Option (List JSON × Bytes)
  | 0, _, _ => none
  | fuel + 1, depth, cs =>
    match skipSpace cs with
    | [] => none
    | d :: rest =>
      if d.toNat = ']'.toNat then some ([], rest)
      else if d.toNat = ','.toNat then
        match parseValue fuel depth (skipSpace rest) with
        | none => none
        | some (v, rest1) =>
          match parseElements fuel depth rest1 with
          | some (vs, rest2) => some (v :: vs, rest2)
          | none => none
      else none
end

/-- A whole JSON text: one value with white space around it. Every call of the parser
is on an input shorter than its bound, so the length of the text bounds the recursion
(`parseValue_fuel`: a larger bound gives the same result). -/
def parseJSON (data : Bytes) : Option JSON :=
  match parseValue (data.length + 1) 0 (skipSpace data) with
  | some (v, rest) => if skipSpace rest = [] then some v else none
  | none => none

/-- Case folding of `encoding/json` for field names: ASCII letters to upper case, the
long s (U+017F) to `S`, the Kelvin sign (U+212A) to `K`. Any other byte outside ASCII is
kept: the rune it belongs to folds to a rune outside ASCII, so the folded name equals no
ASCII field name either way. `skip` counts the bytes of the rune just folded that are
still to be passed over. -/
def foldName : Nat → Bytes → Bytes
  | _, [] => []
  | skip + 1, _ :: rest => foldName skip rest
  | 0, b :: rest =>
    if 97 ≤ b.toNat ∧ b.toNat ≤ 122 then Byte.ofNat (b.toNat - 32) :: foldName 0 rest
    else if utf8.DecodeRune (b :: rest) = (0x17F, 2) then ascii 'S' :: foldName 1 rest
    else if utf8.DecodeRune (b :: rest) = (0x212A, 3) then ascii 'K' :: foldName 2 rest
    else b :: foldName 0 rest

/-- The field an object key addresses: the field of exactly that name, otherwise the
first field whose name equals the key up to case folding. -/
def findField (key : Bytes) : Option Field :=
  match fruitFields.find? (fun p => p.2 = key) with
  | some p => some p.1
  | none =>
    match fruitFields.find? (fun p => foldName 0 p.2 = foldName 0 key) with
    | some p => some p.1
    | none => none

/-- Keeps the first error of a decode. -/
def saveError (saved : Option JsonError) (err : JsonError) : Option JsonError :=
  match saved with
  | none => some err
  | some e => some e

/-- Stores one member of a JSON object into the record: a string value is assigned to
the field the key addresses, `null` changes nothing, a value of another kind is a type
error that leaves the field as it is, and a key addressing no field is skipped. -/
def storeMember (st : Fruit × Option JsonError) (m : Bytes × JSON) :
    Fruit × Option JsonError :=
  match findField m.1 with
  | none => st
  | some fld =>
    match m.2 with
    | JSON.string s => (st.1.set fld s, st.2)
    | JSON.null => st
    | _ => (st.1, saveError st.2 JsonError.UnmarshalTypeError)

/-- Modelled from the spec: the codec from bytes to a record (§6), Go's `json.Unmarshal`
into a `*Fruit`. The result is the record the pointer ends up holding and Go's `error`.
Bytes that are not a JSON text are a syntax error and leave the record untouched; a JSON
object is stored member by member; `null` changes nothing; any other value is a type
error. -/
def json.Unmarshal (data : Bytes) (v : Fruit) : Fruit × Option JsonError :=
  match parseJSON data with
  | none => (v, some JsonError.SyntaxError)
  | some (JSON.object members) => members.foldl storeMember (v, none)
  | some JSON.null => (v, none)
  | some _ => (v, some JsonError.UnmarshalTypeError)

/-- The record `json.Unmarshal` reads back from what `json.Marshal` wrote for a record:
each field made valid UTF-8. -/
def Fruit.coerce (f : Fruit) : Fruit :=
  { SerialNum := utf8.coerce 0 f.SerialNum, Name := utf8.coerce 0 f.Name,
    Origin := utf8.coerce 0 f.Origin, Date := utf8.coerce 0 f.Date,
    Owner := utf8.coerce 0 f.Owner }

/-- A record whose five fields are valid UTF-8. -/
def Fruit.Stable (f : Fruit) : Prop :=
  utf8.Stable f.SerialNum ∧ utf8.Stable f.Name ∧ utf8.Stable f.Origin ∧
    utf8.Stable f.Date ∧ utf8.Stable f.Owner

/-! ## The contract -/

/-- Go's `strconv.Itoa` on a slice index (never negative). -/
def strconv.Itoa (i : Nat) : Bytes := str (Nat.repr i)

/-- The seed records of `InitLedger`. -/
def seedFruits : List Fruit :=
  [{ SerialNum := str "1", Name := str "Grape", Origin := str "South Africa",
     Date := str "2020/07/01", Owner := str "Walmart" },
   { SerialNum := str "2", Name := str "Banana", Origin := str "Filipino",
     Date := str "2020/07/01", Owner := str "Provigo" },
   { SerialNum := str "3", Name := str "Apple", Origin := str "China",
     Date := str "2020/07/01", Owner := str "Walmart" },
   { SerialNum := str "4", Name := str "Strawberry", Origin := str "USA",
     Date := str "2020/07/01", Owner := str "Walmart" },
   { SerialNum := str "5", Name := str "Blueberry", Origin := str "Canada",
     Date := str "2020/07/01", Owner := str "Provigo" }]

/-- The loop `for i, fruit := range fruits` of `InitLedger`, from index `i` on. -/
def InitLedger.loop : Nat → List Fruit → WorldState → WorldState × Option GoError
  | _, [], ws => (ws, none)
  | i, fruit :: rest, ws =>
    let fruitAsBytes := (json.Marshal fruit).1
    match PutState ws (str "fruit" ++ strconv.Itoa i) fruitAsBytes with
    | (ws1, some err) =>
      (ws1, some (GoError.errorf (str "Failed to put to world state. " ++ err.Error)))
    | (ws1, none) => InitLedger.loop (i + 1) rest ws1

/-- `InitLedger` adds a base set of fruits to the ledger. -/
def InitLedger (ws : WorldState) : WorldState × Option GoError :=
  InitLedger.loop 0 seedFruits ws

/-- `Createfruit` adds a new fruit to the world state with given details. -/
def Createfruit (ws : WorldState)
    (fruitNumber serialNum name origin date owner : Bytes) : WorldState × Option GoError :=
  let fruit : Fruit :=
    { SerialNum := serialNum, Name := name, Origin := origin, Date := date, Owner := owner }
  let fruitAsBytes := (json.Marshal fruit).1
  match PutState ws fruitNumber fruitAsBytes with
  | (ws1, some err) => (ws1, some (GoError.host err))
  | (ws1, none) => (ws1, none)

/-- `Queryfruit` returns the fruit stored in the world state with given id. The error of
`json.Unmarshal` is dropped, as in the source. -/
def Queryfruit (ws : WorldState) (fruitNumber : Bytes) : Except GoError Fruit :=
  match GetState ws fruitNumber with
  | .error err =>
    .error (GoError.errorf (str "Failed to read from world state. " ++ err.Error))
  | .ok none => .error (GoError.errorf (fruitNumber ++ str " does not exist"))
  | .ok (some fruitAsBytes) => .ok (json.Unmarshal fruitAsBytes Fruit.zero).1

/-- The loop `for resultsIterator.HasNext()` of `QueryAllfruits`. The error of
`json.Unmarshal` is dropped, as in the source. -/
def QueryAllfruits.loop :
    List (Except ErrorKind (Bytes × Bytes)) → List QueryResult →
      Except GoError (List QueryResult)
  | [], results => .ok results
  | next :: rest, results =>
    match next with
    | .error err => .error (GoError.host err)
    | .ok queryResponse =>
      let fruit := (json.Unmarshal queryResponse.2 Fruit.zero).1
      let queryResult : QueryResult := { Key := queryResponse.1, Record := fruit }
      QueryAllfruits.loop rest (results ++ [queryResult])

/-- `QueryAllfruits` returns all fruits found in world state. -/
def QueryAllfruits (ws : WorldState) : Except GoError (List QueryResult) :=
  let startKey := str "fruit0"
  let endKey := str "fruit99"
  match GetStateByRange ws startKey endKey with
  | .error err => .error (GoError.host err)
  | .ok resultsIterator => QueryAllfruits.loop resultsIterator []

/-- `ChangefruitOwner` updates the owner field of fruit with given id in world state. -/
def ChangefruitOwner (ws : WorldState) (fruitNumber newOwner : Bytes) :
    WorldState × Option GoError :=
  match Queryfruit ws fruitNumber with
  | .error err => (ws, some err)
  | .ok fruit =>
    let ownerHistory := fruit.Owner
    let ownerHistory := ownerHistory ++ str "-"
    let ownerHistory := ownerHistory ++ newOwner
    let fruit := { fruit with Owner := ownerHistory }
    let fruitAsBytes := (json.Marshal fruit).1
    match PutState ws fruitNumber fruitAsBytes with
    | (ws1, some err) => (ws1, some (GoError.host err))
    | (ws1, none) => (ws1, none)

/-! ## Facts about UTF-8 -/

theorem Byte.toNat_ofNat (n : Nat) : (Byte.ofNat n).toNat = n % 256 := rfl

theorem Byte.ofNat_toNat (b : Byte) : Byte.ofNat b.toNat = b :=
  Byte.ext (by rw [Byte.toNat_ofNat]; exact Nat.mod_eq_of_lt b.lt)

theorem ascii_toNat (c : Char) : (ascii c).toNat = c.toNat % 256 := rfl

theorem coerce_skip (k : Nat) (s : Bytes) : utf8.coerce k s = utf8.coerce 0 (s.drop k) := by
  induction k generalizing s with
  | zero => rfl
  | succ k ih =>
    cases s with
    | nil => simp [utf8.coerce]
    | cons b rest => simp only [utf8.coerce, List.drop_succ_cons]; exact ih rest

theorem coerce_ascii (b : Byte) (rest : Bytes) (h : b.toNat < 0x80) :
    utf8.coerce 0 (b :: rest) = b :: utf8.coerce 0 rest := by
  simp [utf8.coerce, h]

theorem coerce_step (b : Byte) (rest : Bytes) (h : ¬ b.toNat < 0x80) :
    utf8.coerce 0 (b :: rest) =
      utf8.EncodeRune (utf8.DecodeRune (b :: rest)).1 ++
        utf8.coerce 0 (rest.drop ((utf8.DecodeRune (b :: rest)).2 - 1)) := by
  rw [← coerce_skip]
  simp [utf8.coerce, h]

theorem DecodeRune_two (p0 b1 : Byte) (X : Bytes)
    (h0 : 0xC2 ≤ p0.toNat ∧ p0.toNat ≤ 0xDF) (h1 : 0x80 ≤ b1.toNat ∧ b1.toNat ≤ 0xBF) :
    utf8.DecodeRune (p0 :: b1 :: X) = (p0.toNat % 32 * 64 + b1.toNat % 64, 2) := by
  have c1 : ¬ p0.toNat < 0x80 := by omega
  have c2 : utf8.isCont b1 = true := by simp [utf8.isCont, h1.1, h1.2]
  simp only [utf8.DecodeRune, c1, h0, c2, if_true, if_false, and_self]

theorem DecodeRune_three (p0 b1 b2 : Byte) (X : Bytes)
    (h0 : 0xE0 ≤ p0.toNat ∧ p0.toNat ≤ 0xEF)
    (h1 : utf8.acceptLo p0.toNat ≤ b1.toNat ∧ b1.toNat ≤ utf8.acceptHi p0.toNat)
    (h2 : 0x80 ≤ b2.toNat ∧ b2.toNat ≤ 0xBF) :
    utf8.DecodeRune (p0 :: b1 :: b2 :: X) =
      ((p0.toNat % 16 * 64 + b1.toNat % 64) * 64 + b2.toNat % 64, 3) := by
  have c1 : ¬ p0.toNat < 0x80 := by omega
  have c2 : ¬ (0xC2 ≤ p0.toNat ∧ p0.toNat ≤ 0xDF) := by omega
  have c3 : utf8.isCont b2 = true := by simp [utf8.isCont, h2.1, h2.2]
  simp only [utf8.DecodeRune, c1, c2, h0, h1, c3, if_true, if_false, and_self]

theorem DecodeRune_four (p0 b1 b2 b3 : Byte) (X : Bytes)
    (h0 : 0xF0 ≤ p0.toNat ∧ p0.toNat ≤ 0xF4)
    (h1 : utf8.acceptLo p0.toNat ≤ b1.toNat ∧ b1.toNat ≤ utf8.acceptHi p0.toNat)
    (h2 : 0x80 ≤ b2.toNat ∧ b2.toNat ≤ 0xBF) (h3 : 0x80 ≤ b3.toNat ∧ b3.toNat ≤ 0xBF) :
    utf8.DecodeRune (p0 :: b1 :: b2 :: b3 :: X) =
      (((p0.toNat % 8 * 64 + b1.toNat % 64) * 64 + b2.toNat % 64) * 64 + b3.toNat % 64, 4) := by
  have c1 : ¬ p0.toNat < 0x80 := by omega
  have c2 : ¬ (0xC2 ≤ p0.toNat ∧ p0.toNat ≤ 0xDF) := by omega
  have c4 : ¬ (0xE0 ≤ p0.toNat ∧ p0.toNat ≤ 0xEF) := by omega
  have c3 : utf8.isCont b2 = true := by simp [utf8.isCont, h2.1, h2.2]
  have c5 : utf8.isCont b3 = true := by simp [utf8.isCont, h3.1, h3.2]
  simp only [utf8.DecodeRune, c1, c2, c4, h0, h1, c3, c5, if_true, if_false, and_self]

/-- What Go's decoder gives on the encoding of a rune (followed by anything): the rune
itself for a Unicode scalar value outside ASCII. -/
theorem DecodeRune_EncodeRune (r : Nat) (X : Bytes) (h1 : 0x80 ≤ r) (h2 : r ≤ 0x10FFFF)
    (h3 : ¬ (0xD800 ≤ r ∧ r ≤ 0xDFFF)) :
    ∃ b tail, utf8.EncodeRune r = b :: tail ∧ ¬ b.toNat < 0x80 ∧
      utf8.DecodeRune (b :: (tail ++ X)) = (r, tail.length + 1) := by
  unfold utf8.EncodeRune
  have h0 : ¬ r < 0x80 := by omega
  rw [if_neg h0]
  by_cases c2 : r < 0x800
  · rw [if_pos c2]
    have e1 : (Byte.ofNat (0xC0 + r / 64)).toNat = 0xC0 + r / 64 := by
      rw [Byte.toNat_ofNat]; omega
    have e2 : (Byte.ofNat (0x80 + r % 64)).toNat = 0x80 + r % 64 := by
      rw [Byte.toNat_ofNat]; omega
    refine ⟨_, _, rfl, by omega, ?_⟩
    simp only [List.cons_append, List.nil_append, List.length_cons, List.length_nil]
    rw [DecodeRune_two _ _ _ (by omega) (by omega), e1, e2]
    congr 1
    omega
  · rw [if_neg c2]
    have c5 : ¬ (0x10FFFF < r ∨ (0xD800 ≤ r ∧ r ≤ 0xDFFF)) := by omega
    rw [if_neg c5]
    by_cases c3 : r < 0x10000
    · rw [if_pos c3]
      have e1 : (Byte.ofNat (0xE0 + r / 4096)).toNat = 0xE0 + r / 4096 := by
        rw [Byte.toNat_ofNat]; omega
      have e2 : (Byte.ofNat (0x80 + r / 64 % 64)).toNat = 0x80 + r / 64 % 64 := by
        rw [Byte.toNat_ofNat]; omega
      have e3 : (Byte.ofNat (0x80 + r % 64)).toNat = 0x80 + r % 64 := by
        rw [Byte.toNat_ofNat]; omega
      refine ⟨_, _, rfl, by omega, ?_⟩
      simp only [List.cons_append, List.nil_append, List.length_cons, List.length_nil]
      rw [DecodeRune_three _ _ _ _ (by omega)
        (by rw [e1, e2]; unfold utf8.acceptLo utf8.acceptHi; split_ifs <;> omega) (by omega),
        e1, e2, e3]
      congr 1
      omega
    · rw [if_neg c3]
      have e1 : (Byte.ofNat (0xF0 + r / 262144)).toNat = 0xF0 + r / 262144 := by
        rw [Byte.toNat_ofNat]; omega
      have e2 : (Byte.ofNat (0x80 + r / 4096 % 64)).toNat = 0x80 + r / 4096 % 64 := by
        rw [Byte.toNat_ofNat]; omega
      have e3 : (Byte.ofNat (0x80 + r / 64 % 64)).toNat = 0x80 + r / 64 % 64 := by
        rw [Byte.toNat_ofNat]; omega
      have e4 : (Byte.ofNat (0x80 + r % 64)).toNat = 0x80 + r % 64 := by
        rw [Byte.toNat_ofNat]; omega
      refine ⟨_, _, rfl, by omega, ?_⟩
      simp only [List.cons_append, List.nil_append, List.length_cons, List.length_nil]
      rw [DecodeRune_four _ _ _ _ _ (by omega)
        (by rw [e1, e2]; unfold utf8.acceptLo utf8.acceptHi; split_ifs <;> omega)
        (by omega) (by omega), e1, e2, e3, e4]
      congr 1
      omega

/-- A decoding that is not the error `(RuneError, 1)` reads a lead byte outside ASCII and
the bytes after it that belong to the rune, and does not depend on what follows them. -/
theorem DecodeRune_valid (b : Byte) (rest : Bytes) (hb : ¬ b.toNat < 0x80)
    (hv : ¬ ((utf8.DecodeRune (b :: rest)).1 = utf8.RuneError ∧
      (utf8.DecodeRune (b :: rest)).2 = 1)) :
    ∃ tail rest1, rest = tail ++ rest1 ∧
      tail.length + 1 = (utf8.DecodeRune (b :: rest)).2 ∧
      ∀ X, utf8.DecodeRune (b :: (tail ++ X)) = utf8.DecodeRune (b :: rest) := by
  by_cases c2 : 0xC2 ≤ b.toNat ∧ b.toNat ≤ 0xDF
  · cases rest with
    | nil => exact absurd ⟨by simp [utf8.DecodeRune, hb, c2], by simp [utf8.DecodeRune, hb, c2]⟩ hv
    | cons b1 r1 =>
      by_cases hc : utf8.isCont b1 = true
      · refine ⟨[b1], r1, rfl, ?_, fun X => ?_⟩
        · simp [utf8.DecodeRune, hb, c2, hc]
        · simp [utf8.DecodeRune, hb, c2, hc]
      · exact absurd ⟨by simp [utf8.DecodeRune, hb, c2, hc],
          by simp [utf8.DecodeRune, hb, c2, hc]⟩ hv
  · by_cases c3 : 0xE0 ≤ b.toNat ∧ b.toNat ≤ 0xEF
    · rcases rest with _ | ⟨b1, _ | ⟨b2, r2⟩⟩
      · exact absurd ⟨by simp [utf8.DecodeRune, hb, c2, c3],
          by simp [utf8.DecodeRune, hb, c2, c3]⟩ hv
      · exact absurd ⟨by simp [utf8.DecodeRune, hb, c2, c3],
          by simp [utf8.DecodeRune, hb, c2, c3]⟩ hv
      · by_cases hc : utf8.acceptLo b.toNat ≤ b1.toNat ∧ b1.toNat ≤ utf8.acceptHi b.toNat ∧
            utf8.isCont b2 = true
        · refine ⟨[b1, b2], r2, rfl, ?_, fun X => ?_⟩
          · simp [utf8.DecodeRune, hb, c2, c3, hc]
          · simp [utf8.DecodeRune, hb, c2, c3, hc]
        · exact absurd ⟨by simp [utf8.DecodeRune, hb, c2, c3, hc],
            by simp [utf8.DecodeRune, hb, c2, c3, hc]⟩ hv
    · by_cases c4 : 0xF0 ≤ b.toNat ∧ b.toNat ≤ 0xF4
      · rcases rest with _ | ⟨b1, _ | ⟨b2, _ | ⟨b3, r3⟩⟩⟩
        · exact absurd ⟨by simp [utf8.DecodeRune, hb, c2, c3, c4],
            by simp [utf8.DecodeRune, hb, c2, c3, c4]⟩ hv
        · exact absurd ⟨by simp [utf8.DecodeRune, hb, c2, c3, c4],
            by simp [utf8.DecodeRune, hb, c2, c3, c4]⟩ hv
        · exact absurd ⟨by simp [utf8.DecodeRune, hb, c2, c3, c4],
            by simp [utf8.DecodeRune, hb, c2, c3, c4]⟩ hv
        · by_cases hc : utf8.acceptLo b.toNat ≤ b1.toNat ∧ b1.toNat ≤ utf8.acceptHi b.toNat ∧
              utf8.isCont b2 = true ∧ utf8.isCont b3 = true
          · refine ⟨[b1, b2, b3], r3, rfl, ?_, fun X => ?_⟩
            · simp [utf8.DecodeRune, hb, c2, c3, c4, hc]
            · simp [utf8.DecodeRune, hb, c2, c3, c4, hc]
          · exact absurd ⟨by simp [utf8.DecodeRune, hb, c2, c3, c4, hc],
              by simp [utf8.DecodeRune, hb, c2, c3, c4, hc]⟩ hv
      · exact absurd ⟨by simp [utf8.DecodeRune, hb, c2, c3, c4],
          by simp [utf8.DecodeRune, hb, c2, c3, c4]⟩ hv

theorem Stable_nil : utf8.Stable [] := fun _ => rfl

theorem Stable_ascii (b : Byte) (h : b.toNat < 0x80) : utf8.Stable [b] := fun X => by
  simp [coerce_ascii b X h]

theorem Stable_append {a c : Bytes} (ha : utf8.Stable a) (hc : utf8.Stable c) :
    utf8.Stable (a ++ c) := fun X => by
  rw [List.append_assoc, ha, hc, List.append_assoc]

theorem Stable_coerce {a : Bytes} (ha : utf8.Stable a) : utf8.coerce 0 a = a := by
  have := ha []
  simpa [utf8.coerce] using this

theorem Stable_EncodeRune_scalar (r : Nat) (h1 : 0x80 ≤ r) (h2 : r ≤ 0x10FFFF)
    (h3 : ¬ (0xD800 ≤ r ∧ r ≤ 0xDFFF)) : utf8.Stable (utf8.EncodeRune r) := fun X => by
  obtain ⟨b, tail, he, hb, hd⟩ := DecodeRune_EncodeRune r X h1 h2 h3
  rw [he, List.cons_append, coerce_step b _ hb, hd]
  simp [he]

theorem EncodeRune_invalid (r : Nat) (h : 0x10FFFF < r ∨ (0xD800 ≤ r ∧ r ≤ 0xDFFF)) :
    utf8.EncodeRune r = utf8.EncodeRune utf8.RuneError := by
  have c1 : ¬ r < 0x80 := by omega
  have c2 : ¬ r < 0x800 := by omega
  simp only [utf8.EncodeRune, c1, c2, h, if_true, if_false]
  decide

theorem Stable_EncodeRune (r : Nat) : utf8.Stable (utf8.EncodeRune r) := by
  by_cases h1 : r < 0x80
  · have : utf8.EncodeRune r = [Byte.ofNat r] := by simp [utf8.EncodeRune, h1]
    rw [this]
    exact Stable_ascii _ (by rw [Byte.toNat_ofNat]; omega)
  · by_cases h2 : 0x10FFFF < r ∨ (0xD800 ≤ r ∧ r ≤ 0xDFFF)
    · rw [EncodeRune_invalid r h2]
      exact Stable_EncodeRune_scalar _ (by decide) (by decide) (by decide)
    · exact Stable_EncodeRune_scalar r (by omega) (by omega) (by omega)

theorem str_cons (c : Char) (cs : List Char) :
    str ⟨c :: cs⟩ = utf8.EncodeRune c.toNat ++ str ⟨cs⟩ := by
  simp [str]

/-- The bytes of a text are valid UTF-8. -/
theorem Stable_str (t : String) : utf8.Stable (str t) := by
  obtain ⟨cs⟩ := t
  induction cs with
  | nil => exact Stable_nil
  | cons c cs ih =>
    rw [str_cons]
    exact Stable_append (Stable_EncodeRune _) ih

/-- Making the bytes of a text valid UTF-8 changes nothing. -/
theorem coerce_str (t : String) : utf8.coerce 0 (str t) = str t :=
  Stable_coerce (Stable_str t)

/-! ## Facts about the codec -/

set_option maxRecDepth 100000 in
theorem getu4_hexDigit (n : Nat) (h : n < 256) :
    getu4 (ascii '0') (ascii '0') (hexDigit (n / 16)) (hexDigit (n % 16)) = some n := by
  revert n
  decide

theorem scanString_skip (p : Option Nat) (k : Nat) (s : Bytes) :
    scanString p k s = scanString p 0 (s.drop k) := by
  induction k generalizing s with
  | zero => rfl
  | succ k ih =>
    cases s with
    | nil => rw [scanString.eq_def]; simp; rw [scanString.eq_def]
    | cons b rest =>
      rw [scanString.eq_def]
      simp only [List.drop_succ_cons]
      exact ih rest

theorem escapeBytes_skip (k : Nat) (s : Bytes) :
    escapeBytes k s = escapeBytes 0 (s.drop k) := by
  induction k generalizing s with
  | zero => rfl
  | succ k ih =>
    cases s with
    | nil => simp [escapeBytes]
    | cons b rest => simp only [escapeBytes, List.drop_succ_cons]; exact ih rest

theorem consBytes_some (p s rest : Bytes) :
    consBytes p (some (s, rest)) = some (p ++ s, rest) := rfl

theorem scanString_quote (rest : Bytes) :
    scanString none 0 (ascii '"' :: rest) = some ([], rest) := by
  rw [scanString.eq_def]; simp [flushPending, ascii_toNat]

theorem scanString_plain (c : Byte) (tail : Bytes) (h1 : c.toNat ≠ '"'.toNat)
    (h2 : c.toNat ≠ '\\'.toNat) (h3 : ¬ c.toNat < 32) (h4 : c.toNat < 0x80) :
    scanString none 0 (c :: tail) = consBytes [c] (scanString none 0 tail) := by
  rw [scanString.eq_def]
  simp only [h1, h2, h3, h4, if_false, if_true, flushPending]

theorem scanString_simple (e x : Byte) (tail : Bytes) (h1 : e.toNat ≠ 'u'.toNat)
    (h2 : simpleEscape e = some x) :
    scanString none 0 (ascii '\\' :: e :: tail) = consBytes [x] (scanString none 0 tail) := by
  rw [scanString.eq_def]
  have h3 : ¬ e.toNat = 117 := h1
  simp [h3, h2, ascii_toNat, flushPending]

theorem scanString_unicode (a b c d : Byte) (r : Nat) (tail : Bytes)
    (h1 : getu4 a b c d = some r) (h2 : r < 0xD800 ∨ 0xE000 ≤ r) :
    scanString none 0 (ascii '\\' :: ascii 'u' :: a :: b :: c :: d :: tail) =
      consBytes (utf8.EncodeRune r) (scanString none 0 tail) := by
  rw [scanString.eq_def]
  have h3 : ¬ (0xDC00 ≤ r ∧ r < 0xE000) := by omega
  have h4 : ¬ (0xD800 ≤ r ∧ r < 0xDC00) := by omega
  simp [h1, h3, h4, ascii_toNat, flushPending]

theorem scanString_rune (c : Byte) (rest : Bytes) (h : ¬ c.toNat < 0x80) :
    scanString none 0 (c :: rest) =
      consBytes (utf8.EncodeRune (utf8.DecodeRune (c :: rest)).1)
        (scanString none 0 (rest.drop ((utf8.DecodeRune (c :: rest)).2 - 1))) := by
  rw [← scanString_skip, scanString.eq_def]
  have h1 : c.toNat ≠ '"'.toNat := by simp; omega
  have h2 : c.toNat ≠ '\\'.toNat := by simp; omega
  have h3 : ¬ c.toNat < 32 := by omega
  simp only [h1, h2, h3, h, if_false, flushPending]

/-- Reading back what `escapeASCII` wrote for an ASCII byte gives the byte. -/
theorem scanString_escapeASCII (b : Byte) (Y : Bytes) (hb : b.toNat < 0x80) :
    scanString none 0 (escapeASCII b ++ Y) = consBytes [b] (scanString none 0 Y) := by
  unfold escapeASCII
  split_ifs with h1 h2 h3 h4 h5
  · have hs : simpleEscape b = some b := by
      unfold simpleEscape
      rw [if_pos (by rcases h1 with h1 | h1 <;> simp [h1])]
    have hu : b.toNat ≠ 'u'.toNat := by
      rcases h1 with h1 | h1 <;> rw [h1] <;> decide
    exact scanString_simple b b Y hu hs
  · have : b = ascii '\n' := Byte.ext h2
    rw [this]
    exact scanString_simple _ _ Y (by decide) (by decide)
  · have : b = ascii '\r' := Byte.ext h3
    rw [this]
    exact scanString_simple _ _ Y (by decide) (by decide)
  · have : b = ascii '\t' := Byte.ext h4
    rw [this]
    exact scanString_simple _ _ Y (by decide) (by decide)
  · have hn : b.toNat < 256 := b.lt
    have := scanString_unicode _ _ _ _ b.toNat Y (getu4_hexDigit _ hn) (Or.inl (by omega))
    have he : utf8.EncodeRune b.toNat = [b] := by
      simp [utf8.EncodeRune, hb, Byte.ofNat_toNat]
    rw [he] at this
    simpa using this
  · have h1a : b.toNat ≠ '"'.toNat := fun h => h1 (Or.inl h)
    have h1b : b.toNat ≠ '\\'.toNat := fun h => h1 (Or.inr h)
    have h5a : ¬ b.toNat < 32 := fun h => h5 (Or.inl h)
    exact scanString_plain b Y h1a h1b h5a hb

theorem escapeBytes_ascii (b : Byte) (rest : Bytes) (h : b.toNat < 0x80) :
    escapeBytes 0 (b :: rest) = escapeASCII b ++ escapeBytes 0 rest := by
  simp [escapeBytes, h]

/-- Reading back the contents `encoding/json` wrote for a string gives the string made
valid UTF-8, for every byte sequence. -/
theorem scanString_escapeBytes (n : Nat) : ∀ (s rest : Bytes), s.length ≤ n →
    scanString none 0 (escapeBytes 0 s ++ ascii '"' :: rest) =
      some (utf8.coerce 0 s, rest) := by
  induction n with
  | zero =>
    intro s rest hn
    have : s = [] := List.length_eq_zero.1 (Nat.le_zero.1 hn)
    subst this
    simp [escapeBytes, utf8.coerce, scanString_quote]
  | succ n ih =>
    intro s rest hn
    cases s with
    | nil => simp [escapeBytes, utf8.coerce, scanString_quote]
    | cons b t =>
      simp only [List.length_cons] at hn
      by_cases hb : b.toNat < 0x80
      · rw [escapeBytes_ascii b t hb, List.append_assoc, scanString_escapeASCII b _ hb,
          ih t rest (by omega), coerce_ascii b t hb]
        rfl
      · by_cases hv : (utf8.DecodeRune (b :: t)).1 = utf8.RuneError ∧
            (utf8.DecodeRune (b :: t)).2 = 1
        · have he : escapeBytes 0 (b :: t) =
              [ascii '\\', ascii 'u', ascii 'f', ascii 'f', ascii 'f', ascii 'd'] ++
                escapeBytes 0 t := by
            simp [escapeBytes, hb, hv]
          rw [he, coerce_step b t hb, hv.1, hv.2]
          simp only [List.cons_append, List.nil_append, List.append_assoc]
          rw [scanString_unicode _ _ _ _ 0xFFFD _ (by decide) (Or.inr (by omega)),
            ih t rest (by omega)]
          rfl
        · obtain ⟨tail, rest1, ht, hlen, hloc⟩ := DecodeRune_valid b t hb hv
          have hdrop : t.drop ((utf8.DecodeRune (b :: t)).2 - 1) = rest1 := by
            rw [← hlen, ht]; simp
          have hlen1 : rest1.length ≤ n := by
            have : t.length = tail.length + rest1.length := by rw [ht]; simp
            omega
          rw [coerce_step b t hb, hdrop]
          by_cases hsep : (utf8.DecodeRune (b :: t)).1 = 0x2028 ∨
              (utf8.DecodeRune (b :: t)).1 = 0x2029
          · have he : escapeBytes 0 (b :: t) =
                [ascii '\\', ascii 'u', ascii '2', ascii '0', ascii '2',
                  hexDigit ((utf8.DecodeRune (b :: t)).1 % 16)] ++ escapeBytes 0 rest1 := by
              rw [← hdrop, ← escapeBytes_skip]
              simp [escapeBytes, hb, hv, hsep]
            rw [he]
            simp only [List.cons_append, List.nil_append, List.append_assoc]
            rw [scanString_unicode _ _ _ _ (utf8.DecodeRune (b :: t)).1 _
              (by rcases hsep with h | h <;> rw [h] <;> decide)
              (Or.inl (by rcases hsep with h | h <;> rw [h] <;> decide)),
              ih rest1 rest hlen1]
            rfl
          · have he : escapeBytes 0 (b :: t) = b :: (tail ++ escapeBytes 0 rest1) := by
              rw [← hdrop, ← escapeBytes_skip]
              have htake : (b :: t).take (utf8.DecodeRune (b :: t)).2 = b :: tail := by
                rw [← hlen, ht]; simp
              simp [escapeBytes, hb, hv, hsep, htake]
            rw [he]
            simp only [List.cons_append, List.append_assoc]
            rw [scanString_rune b _ hb, hloc, ← hlen]
            simp only [Nat.add_sub_cancel, List.drop_left]
            rw [ih rest1 rest hlen1]
            rfl

theorem scanString_escaped (s rest : Bytes) :
    scanString none 0 (escapeBytes 0 s ++ ascii '"' :: rest) = some (utf8.coerce 0 s, rest) :=
  scanString_escapeBytes s.length s rest (Nat.le_refl _)

set_option maxRecDepth 100000 in
/-- The wire names of the fields: the malformed tag of `Owner` gives no name, so the Go
field name is used, which is the name the tag was meant to give. -/
theorem fruitFields_eq : fruitFields =
    [(Field.SerialNum, str "SerialNum"), (Field.Name, str "Name"),
     (Field.Origin, str "Origin"), (Field.Date, str "Date"),
     (Field.Owner, str "Owner")] := by decide

theorem skipSpace_quote (cs : Bytes) : skipSpace (ascii '"' :: cs) = ascii '"' :: cs := by
  simp [skipSpace, isSpace, ascii_toNat]

theorem quote_append (s rest : Bytes) :
    quote s ++ rest = ascii '"' :: (escapeBytes 0 s ++ ascii '"' :: rest) := by
  simp [quote]

theorem parseValue_quote (fuel depth : Nat) (s rest : Bytes) :
    parseValue (fuel + 1) depth (ascii '"' :: (escapeBytes 0 s ++ ascii '"' :: rest)) =
      some (JSON.string (utf8.coerce 0 s), rest) := by
  rw [parseValue]
  simp [scanString_escaped, ascii_toNat]

theorem parseMembers_last (fuel depth : Nat) (k v rest : Bytes) :
    parseMembers (fuel + 2) depth
        (ascii '"' :: (escapeBytes 0 k ++ ascii '"' :: ascii ':' :: ascii '"' ::
          (escapeBytes 0 v ++ ascii '"' :: ascii '}' :: rest))) =
      some ([(utf8.coerce 0 k, JSON.string (utf8.coerce 0 v))], rest) := by
  rw [parseMembers]
  simp only [scanString_escaped]
  have h1 : skipSpace (ascii ':' :: ascii '"' ::
      (escapeBytes 0 v ++ ascii '"' :: ascii '}' :: rest)) = ascii ':' :: ascii '"' ::
      (escapeBytes 0 v ++ ascii '"' :: ascii '}' :: rest) := by
    simp [skipSpace, isSpace, ascii_toNat]
  have h2 : skipSpace (ascii '}' :: rest) = ascii '}' :: rest := by
    simp [skipSpace, isSpace, ascii_toNat]
  simp [h1, h2, skipSpace_quote, parseValue_quote, ascii_toNat]

theorem parseMembers_next (fuel depth : Nat) (k v more : Bytes) :
    parseMembers (fuel + 2) depth
        (ascii '"' :: (escapeBytes 0 k ++ ascii '"' :: ascii ':' :: ascii '"' ::
          (escapeBytes 0 v ++ ascii '"' :: ascii ',' :: ascii '"' :: more))) =
      match parseMembers (fuel + 1) depth (ascii '"' :: more) with
      | some (ms, rest) => some ((utf8.coerce 0 k, JSON.string (utf8.coerce 0 v)) :: ms, rest)
      | none => none := by
  rw [parseMembers]
  simp only [scanString_escaped]
  have h1 : skipSpace (ascii ':' :: ascii '"' ::
      (escapeBytes 0 v ++ ascii '"' :: ascii ',' :: ascii '"' :: more)) = ascii ':' ::
      ascii '"' :: (escapeBytes 0 v ++ ascii '"' :: ascii ',' :: ascii '"' :: more) := by
    simp [skipSpace, isSpace, ascii_toNat]
  have h2 : skipSpace (ascii ',' :: ascii '"' :: more) = ascii ',' :: ascii '"' :: more := by
    simp [skipSpace, isSpace, ascii_toNat]
  simp [h1, h2, skipSpace_quote, parseValue_quote, ascii_toNat]

theorem Marshal_data (f : Fruit) : (json.Marshal f).1 = marshalText f := by
  unfold json.Marshal
  rw [fruitFields_eq]
  simp only [encodeMembers, Fruit.get, quote_append, List.cons_append, List.append_assoc,
    List.nil_append, marshalText]

theorem parseValue_object (fuel depth : Nat) (more : Bytes)
    (h : depth < maxNestingDepth) :
    parseValue (fuel + 1) depth (ascii '{' :: ascii '"' :: more) =
      match parseMembers fuel (depth + 1) (ascii '"' :: more) with
      | some (ms, rest) => some (JSON.object ms, rest)
      | none => none := by
  rw [parseValue]
  simp [skipSpace_quote, h, ascii_toNat]

theorem parseValue_Marshal (fuel : Nat) (f : Fruit) :
    parseValue (fuel + 7) 0 (json.Marshal f).1 =
      some (JSON.object
        [(str "SerialNum", JSON.string (utf8.coerce 0 f.SerialNum)),
         (str "Name", JSON.string (utf8.coerce 0 f.Name)),
         (str "Origin", JSON.string (utf8.coerce 0 f.Origin)),
         (str "Date", JSON.string (utf8.coerce 0 f.Date)),
         (str "Owner", JSON.string (utf8.coerce 0 f.Owner))], []) := by
  rw [Marshal_data, marshalText, parseValue_object _ _ _ (by decide)]
  rw [show fuel + 6 = (fuel + 4) + 2 from rfl, parseMembers_next,
    show fuel + 4 + 1 = (fuel + 3) + 2 from rfl, parseMembers_next,
    show fuel + 3 + 1 = (fuel + 2) + 2 from rfl, parseMembers_next,
    show fuel + 2 + 1 = (fuel + 1) + 2 from rfl, parseMembers_next,
    show fuel + 1 + 1 = fuel + 2 from rfl, parseMembers_last]
  simp only [coerce_str]

theorem marshalText_length (f : Fruit) : 6 ≤ (marshalText f).length := by
  simp only [marshalText, List.length_cons, List.length_append]
  omega

theorem parseJSON_Marshal (f : Fruit) :
    parseJSON (json.Marshal f).1 =
      some (JSON.object
        [(str "SerialNum", JSON.string (utf8.coerce 0 f.SerialNum)),
         (str "Name", JSON.string (utf8.coerce 0 f.Name)),
         (str "Origin", JSON.string (utf8.coerce 0 f.Origin)),
         (str "Date", JSON.string (utf8.coerce 0 f.Date)),
         (str "Owner", JSON.string (utf8.coerce 0 f.Owner))]) := by
  unfold parseJSON
  have hs : skipSpace (json.Marshal f).1 = (json.Marshal f).1 := by
    rw [Marshal_data, marshalText]; simp [skipSpace, isSpace, ascii_toNat]
  obtain ⟨n, hn⟩ : ∃ n, (json.Marshal f).1.length + 1 = n + 7 := by
    have := marshalText_length f
    rw [← Marshal_data] at this
    exact ⟨(json.Marshal f).1.length - 6, by omega⟩
  rw [hs, hn, parseValue_Marshal]
  simp [skipSpace]

set_option maxRecDepth 100000 in
/-- Decoding what `json.Marshal` wrote for a record gives the record with each field made
valid UTF-8, without error, whatever the record decoded into held before. -/
theorem Unmarshal_Marshal (f v : Fruit) :
    json.Unmarshal (json.Marshal f).1 v = (f.coerce, none) := by
  unfold json.Unmarshal
  rw [parseJSON_Marshal]
  simp only [List.foldl, storeMember]
  have h1 : findField (str "SerialNum") = some Field.SerialNum := by decide
  have h2 : findField (str "Name") = some Field.Name := by decide
  have h3 : findField (str "Origin") = some Field.Origin := by decide
  have h4 : findField (str "Date") = some Field.Date := by decide
  have h5 : findField (str "Owner") = some Field.Owner := by decide
  simp only [h1, h2, h3, h4, h5, Fruit.set, Fruit.coerce]

/-! ### What the parser reads -/

theorem consBytes_inv {p : Bytes} {r : Option (Bytes × Bytes)} {s rest : Bytes}
    (h : consBytes p r = some (s, rest)) : ∃ s1, r = some (s1, rest) ∧ s = p ++ s1 := by
  cases r with
  | none => simp [consBytes] at h
  | some x =>
    obtain ⟨s0, r0⟩ := x
    simp only [consBytes, Option.some.injEq, Prod.mk.injEq] at h
    exact ⟨s0, by rw [h.2], h.1.symm⟩

theorem flushPending_inv {p : Option Nat} {r : Option (Bytes × Bytes)} {s rest : Bytes}
    (h : flushPending p r = some (s, rest)) :
    ∃ pre s1, r = some (s1, rest) ∧ s = pre ++ s1 ∧ utf8.Stable pre := by
  cases p with
  | none => exact ⟨[], s, h, rfl, Stable_nil⟩
  | some hi =>
    obtain ⟨s1, h1, h2⟩ := consBytes_inv h
    exact ⟨_, s1, h1, h2, Stable_EncodeRune _⟩

/-- A string literal that is read uses up input, and the bytes it denotes are valid
UTF-8. -/
theorem scanString_spec (n : Nat) : ∀ (p : Option Nat) (k : Nat) (cs s rest : Bytes),
    cs.length ≤ n → scanString p k cs = some (s, rest) →
      rest.length < cs.length ∧ utf8.Stable s := by
  induction n with
  | zero =>
    intro p k cs s rest hn h
    have : cs = [] := List.length_eq_zero.1 (Nat.le_zero.1 hn)
    subst this
    rw [scanString.eq_def] at h
    simp at h
  | succ n ih =>
    intro p k cs s rest hn h
    cases cs with
    | nil => rw [scanString.eq_def] at h; simp at h
    | cons c r =>
      simp only [List.length_cons] at hn ⊢
      cases k with
      | succ k =>
        rw [scanString.eq_def] at h
        simp only at h
        have := ih _ _ _ _ _ (by omega) h
        exact ⟨by omega, this.2⟩
      | zero =>
        rw [scanString.eq_def] at h
        simp only at h
        split at h
        · obtain ⟨pre, s1, h1, h2, h3⟩ := flushPending_inv h
          simp only [Option.some.injEq, Prod.mk.injEq] at h1
          rw [h2, ← h1.1, ← h1.2]
          exact ⟨by omega, by simpa using h3⟩
        · split at h
          · split at h
            · simp at h
            · rename_i e rest1
              simp only [List.length_cons] at hn ⊢
              split at h
              · split at h
                · rename_i a b c1 d rest2
                  simp only [List.length_cons] at hn ⊢
                  split at h
                  · simp at h
                  · split at h
                    · split at h
                      · obtain ⟨s1, h1, h2⟩ := consBytes_inv h
                        have := ih _ _ _ _ _ (by omega) h1
                        exact ⟨by omega, h2 ▸ Stable_append (Stable_EncodeRune _) this.2⟩
                      · obtain ⟨s1, h1, h2⟩ := consBytes_inv h
                        have := ih _ _ _ _ _ (by omega) h1
                        exact ⟨by omega, h2 ▸ Stable_append (Stable_EncodeRune _) this.2⟩
                    · split at h
                      · obtain ⟨pre, s1, h1, h2, h3⟩ := flushPending_inv h
                        have := ih _ _ _ _ _ (by omega) h1
                        exact ⟨by omega, h2 ▸ Stable_append h3 this.2⟩
                      · obtain ⟨pre, s1, h1, h2, h3⟩ := flushPending_inv h
                        obtain ⟨s2, h4, h5⟩ := consBytes_inv h1
                        have := ih _ _ _ _ _ (by omega) h4
                        exact ⟨by omega, h2 ▸ h5 ▸
                          Stable_append h3 (Stable_append (Stable_EncodeRune _) this.2)⟩
                · simp at h
              · split at h
                · rename_i x hx
                  obtain ⟨pre, s1, h1, h2, h3⟩ := flushPending_inv h
                  obtain ⟨s2, h4, h5⟩ := consBytes_inv h1
                  have := ih _ _ _ _ _ (by omega) h4
                  have hx1 : x.toNat < 0x80 := by
                    unfold simpleEscape at hx
                    split_ifs at hx with g1 <;> simp only [Option.some.injEq] at hx <;>
                      subst hx
                    · rcases g1 with g | g | g <;> rw [g] <;> decide
                    all_goals decide
                  exact ⟨by omega, h2 ▸ h5 ▸
                    Stable_append h3 (Stable_append (Stable_ascii x hx1) this.2)⟩
                · simp at h
          · split at h
            · simp at h
            · split at h
              · rename_i hlt
                obtain ⟨pre, s1, h1, h2, h3⟩ := flushPending_inv h
                obtain ⟨s2, h4, h5⟩ := consBytes_inv h1
                have := ih _ _ _ _ _ (by omega) h4
                exact ⟨by omega, h2 ▸ h5 ▸
                  Stable_append h3 (Stable_append (Stable_ascii c hlt) this.2)⟩
              · obtain ⟨pre, s1, h1, h2, h3⟩ := flushPending_inv h
                obtain ⟨s2, h4, h5⟩ := consBytes_inv h1
                have := ih _ _ _ _ _ (by omega) h4
                exact ⟨by omega, h2 ▸ h5 ▸
                  Stable_append h3 (Stable_append (Stable_EncodeRune _) this.2)⟩

theorem scanString_length (n : Nat) (p : Option Nat) (cs s rest : Bytes)
    (hn : cs.length ≤ n) (h : scanString p 0 cs = some (s, rest)) :
    rest.length < cs.length :=
  (scanString_spec n p 0 cs s rest hn h).1

theorem scanString_stable {p : Option Nat} {cs s rest : Bytes}
    (h : scanString p 0 cs = some (s, rest)) : utf8.Stable s :=
  (scanString_spec cs.length p 0 cs s rest (Nat.le_refl _) h).2

/-! ### The recursion bound of the parser -/

theorem skipSpace_length (cs : Bytes) : (skipSpace cs).length ≤ cs.length := by
  induction cs with
  | nil => simp [skipSpace]
  | cons c rest ih =>
    simp only [skipSpace]
    split
    · simp only [List.length_cons]; omega
    · exact Nat.le_refl _

theorem dropWhile_length (p : Byte → Bool) (cs : Bytes) :
    (cs.dropWhile p).length ≤ cs.length :=
  (List.dropWhile_sublist p).length_le

theorem scanDigits_length {cs rest : Bytes} (h : scanDigits cs = some rest) :
    rest.length < cs.length := by
  cases cs with
  | nil => simp [scanDigits] at h
  | cons c r =>
    simp only [scanDigits] at h
    split at h
    · simp only [Option.some.injEq] at h
      have := dropWhile_length isDigit r
      rw [h] at this
      simp only [List.length_cons]; omega
    · simp at h

theorem scanExponent_length {cs rest : Bytes} (h : scanExponent cs = some rest) :
    rest.length ≤ cs.length := by
  unfold scanExponent at h
  split at h
  · simp only [Option.some.injEq] at h; rw [← h]
  · split at h
    · split at h
      · simp at h
      · split at h
        · have := scanDigits_length h
          simp only [List.length_cons] at this ⊢; omega
        · have := scanDigits_length h
          simp only [List.length_cons] at this ⊢; omega
    · simp only [Option.some.injEq] at h; rw [← h]

theorem scanFraction_length {cs rest : Bytes} (h : scanFraction cs = some rest) :
    rest.length ≤ cs.length := by
  unfold scanFraction at h
  split at h
  · simp only [Option.some.injEq] at h; rw [← h]
  · split at h
    · split at h
      · rename_i hd
        have h1 := scanDigits_length hd
        have h2 := scanExponent_length h
        simp only [List.length_cons]; omega
      · simp at h
    · exact scanExponent_length h

theorem scanInteger_length {cs rest : Bytes} (h : scanInteger cs = some rest) :
    rest.length < cs.length := by
  cases cs with
  | nil => simp [scanInteger] at h
  | cons c r =>
    simp only [scanInteger] at h
    simp only [List.length_cons]
    split at h
    · have := scanFraction_length h; omega
    · split at h
      · have h1 := scanFraction_length h
        have h2 := dropWhile_length isDigit r
        omega
      · simp at h

theorem scanNumber_length {cs rest : Bytes} (h : scanNumber cs = some rest) :
    rest.length < cs.length := by
  cases cs with
  | nil => simp [scanNumber] at h
  | cons c r =>
    simp only [scanNumber] at h
    split at h
    · have := scanInteger_length h
      simp only [List.length_cons]; omega
    · exact scanInteger_length h

theorem scanLiteral_length {word cs rest : Bytes} (h : scanLiteral word cs = some rest) :
    rest.length ≤ cs.length := by
  unfold scanLiteral at h
  split at h
  · simp only [Option.some.injEq] at h
    rw [← h, List.length_drop]; omega
  · simp at h

/-- Every parser function uses up input: what is left after a value, after the members of
an object or after the elements of an array is shorter than what it was given. -/
theorem parse_length (fuel : Nat) :
    (∀ (d : Nat) (cs : Bytes) (v : JSON) (rest : Bytes),
      parseValue fuel d cs = some (v, rest) → rest.length < cs.length) ∧
    (∀ (d : Nat) (cs : Bytes) (ms : List (Bytes × JSON)) (rest : Bytes),
      parseMembers fuel d cs = some (ms, rest) → rest.length < cs.length) ∧
    (∀ (d : Nat) (cs : Bytes) (vs : List JSON) (rest : Bytes),
      parseElements fuel d cs = some (vs, rest) → rest.length < cs.length) := by
  induction fuel with
  | zero =>
    refine ⟨?_, ?_, ?_⟩ <;> intro d cs v rest h
    · simp [parseValue] at h
    · simp [parseMembers] at h
    · simp [parseElements] at h
  | succ fuel ih =>
    obtain ⟨ihV, ihM, ihE⟩ := ih
    refine ⟨?_, ?_, ?_⟩
    · intro d cs v rest h
      cases cs with
      | nil => simp [parseValue] at h
      | cons c r =>
        rw [parseValue] at h
        simp only [List.length_cons]
        split at h
        · split at h
          · rename_i hs
            simp only [Option.some.injEq, Prod.mk.injEq] at h
            have := scanString_length _ _ _ _ _ (Nat.le_refl _) hs
            rw [← h.2]; omega
          · simp at h
        · split at h
          · split at h
            · split at h
              · simp at h
              · rename_i d1 rest1 hsk
                have hlen := skipSpace_length r
                rw [hsk] at hlen
                simp only [List.length_cons] at hlen
                split at h
                · simp only [Option.some.injEq, Prod.mk.injEq] at h
                  rw [← h.2]; omega
                · split at h
                  · rename_i hm
                    have := ihM _ _ _ _ hm
                    simp only [List.length_cons, Option.some.injEq, Prod.mk.injEq] at this h
                    rw [← h.2]; omega
                  · simp at h
            · simp at h
          · split at h
            · split at h
              · split at h
                · simp at h
                · rename_i d1 rest1 hsk
                  have hlen := skipSpace_length r
                  rw [hsk] at hlen
                  simp only [List.length_cons] at hlen
                  split at h
                  · simp only [Option.some.injEq, Prod.mk.injEq] at h
                    rw [← h.2]; omega
                  · split at h
                    · simp at h
                    · rename_i hv
                      have h1 := ihV _ _ _ _ hv
                      split at h
                      · rename_i he
                        have h2 := ihE _ _ _ _ he
                        simp only [List.length_cons, Option.some.injEq, Prod.mk.injEq]
                          at h1 h
                        rw [← h.2]; omega
                      · simp at h
              · simp at h
            · split at h
              · split at h
                · rename_i hl
                  have := scanLiteral_length hl
                  simp only [Option.some.injEq, Prod.mk.injEq] at h
                  rw [← h.2]; omega
                · simp at h
              · split at h
                · split at h
                  · rename_i hl
                    have := scanLiteral_length hl
                    simp only [Option.some.injEq, Prod.mk.injEq] at h
                    rw [← h.2]; omega
                  · simp at h
                · split at h
                  · split at h
                    · rename_i hl
                      have := scanLiteral_length hl
                      simp only [Option.some.injEq, Prod.mk.injEq] at h
                      rw [← h.2]; omega
                    · simp at h
                  · split at h
                    · rename_i hl
                      have := scanNumber_length hl
                      simp only [List.length_cons, Option.some.injEq, Prod.mk.injEq] at h this
                      rw [← h.2]; omega
                    · simp at h
    · intro d cs ms rest h
      cases cs with
      | nil => simp [parseMembers] at h
      | cons c r =>
        rw [parseMembers] at h
        simp only [List.length_cons]
        split at h
        · split at h
          · simp at h
          · rename_i key rest1 hs
            have h1 := scanString_length _ _ _ _ _ (Nat.le_refl _) hs
            split at h
            · simp at h
            · rename_i colon rest2 hsk
              have h2 := skipSpace_length rest1
              rw [hsk] at h2
              simp only [List.length_cons] at h2
              split at h
              · split at h
                · simp at h
                · rename_i v rest3 hv
                  have h3 := ihV _ _ _ _ hv
                  have h4 := skipSpace_length rest2
                  split at h
                  · simp at h
                  · rename_i d1 rest4 hsk2
                    have h5 := skipSpace_length rest3
                    rw [hsk2] at h5
                    simp only [List.length_cons] at h5
                    split at h
                    · simp only [Option.some.injEq, Prod.mk.injEq] at h
                      rw [← h.2]; omega
                    · split at h
                      · split at h
                        · rename_i hm
                          have h6 := ihM _ _ _ _ hm
                          have h7 := skipSpace_length rest4
                          simp only [Option.some.injEq, Prod.mk.injEq] at h
                          rw [← h.2]; omega
                        · simp at h
                      · simp at h
              · simp at h
        · simp at h
    · intro d cs vs rest h
      rw [parseElements] at h
      split at h
      · simp at h
      · rename_i d1 rest1 hsk
        have h1 := skipSpace_length cs
        rw [hsk] at h1
        simp only [List.length_cons] at h1
        split at h
        · simp only [Option.some.injEq, Prod.mk.injEq] at h
          rw [← h.2]; omega
        · split at h
          · split at h
            · simp at h
            · rename_i v rest2 hv
              have h2 := ihV _ _ _ _ hv
              have h3 := skipSpace_length rest1
              split at h
              · rename_i he
                have h4 := ihE _ _ _ _ he
                simp only [Option.some.injEq, Prod.mk.injEq] at h
                rw [← h.2]; omega
              · simp at h
          · simp at h

/-- The recursion bound of the parser is never the reason for a result: on an input
shorter than the bound, any larger bound gives the same result. -/
theorem parse_fuel (fuel : Nat) :
    (∀ (d : Nat) (cs : Bytes) (n : Nat), cs.length < fuel →
      parseValue (fuel + n) d cs = parseValue fuel d cs) ∧
    (∀ (d : Nat) (cs : Bytes) (n : Nat), cs.length < fuel →
      parseMembers (fuel + n) d cs = parseMembers fuel d cs) ∧
    (∀ (d : Nat) (cs : Bytes) (n : Nat), cs.length < fuel →
      parseElements (fuel + n) d cs = parseElements fuel d cs) := by
  induction fuel with
  | zero =>
    refine ⟨?_, ?_, ?_⟩ <;> intro d cs n h <;> exact absurd h (Nat.not_lt_zero _)
  | succ fuel ih =>
    obtain ⟨ihV, ihM, ihE⟩ := ih
    have hL := parse_length fuel
    refine ⟨?_, ?_, ?_⟩
    · intro d cs n hlen
      rw [show fuel + 1 + n = (fuel + n) + 1 by omega]
      cases cs with
      | nil => simp [parseValue]
      | cons c r =>
        rw [parseValue, parseValue]
        simp only [List.length_cons] at hlen
        have hsk := skipSpace_length r
        split_ifs
        · rfl
        · rcases hs : skipSpace r with _ | ⟨d1, rest1⟩
          · rfl
          · rw [hs] at hsk
            simp only [List.length_cons] at hsk
            simp only
            split_ifs
            · rfl
            · rw [ihM _ _ _ (by simp only [List.length_cons]; omega)]
        · rfl
        · rcases hs : skipSpace r with _ | ⟨d1, rest1⟩
          · rfl
          · rw [hs] at hsk
            simp only [List.length_cons] at hsk
            simp only
            split_ifs
            · rfl
            · rw [ihV _ _ _ (by simp only [List.length_cons]; omega)]
              rcases hv : parseValue fuel (d + 1) (d1 :: rest1) with _ | ⟨v, rest2⟩
              · rfl
              · have := hL.1 _ _ _ _ hv
                simp only [List.length_cons] at this
                simp only
                rw [ihE _ _ _ (by omega)]
        · rfl
        · rfl
        · rfl
        · rfl
        · rfl
    · intro d cs n hlen
      rw [show fuel + 1 + n = (fuel + n) + 1 by omega]
      cases cs with
      | nil => simp [parseMembers]
      | cons c r =>
        rw [parseMembers, parseMembers]
        simp only [List.length_cons] at hlen
        split_ifs
        · rcases hs : scanString none 0 r with _ | ⟨key, rest1⟩
          · rfl
          · have h1 := scanString_length _ _ _ _ _ (Nat.le_refl _) hs
            simp only
            rcases hsk : skipSpace rest1 with _ | ⟨colon, rest2⟩
            · rfl
            · have h2 := skipSpace_length rest1
              rw [hsk] at h2
              simp only [List.length_cons] at h2
              simp only
              split_ifs
              · have h3 := skipSpace_length rest2
                rw [ihV _ _ _ (by omega)]
                rcases hv : parseValue fuel d (skipSpace rest2) with _ | ⟨v, rest3⟩
                · rfl
                · have h4 := hL.1 _ _ _ _ hv
                  simp only
                  rcases hsk2 : skipSpace rest3 with _ | ⟨d1, rest4⟩
                  · rfl
                  · have h5 := skipSpace_length rest3
                    rw [hsk2] at h5
                    simp only [List.length_cons] at h5
                    have h6 := skipSpace_length rest4
                    simp only
                    split_ifs
                    · rfl
                    · rw [ihM _ _ _ (by omega)]
                    · rfl
              · rfl
        · rfl
    · intro d cs n hlen
      rw [show fuel + 1 + n = (fuel + n) + 1 by omega]
      rw [parseElements, parseElements]
      rcases hsk : skipSpace cs with _ | ⟨d1, rest⟩
      · rfl
      · have h1 := skipSpace_length cs
        rw [hsk] at h1
        simp only [List.length_cons] at h1
        have h2 := skipSpace_length rest
        simp only
        split_ifs
        · rfl
        · rw [ihV _ _ _ (by omega)]
          rcases hv : parseValue fuel d (skipSpace rest) with _ | ⟨v, rest1⟩
          · rfl
          · have h3 := hL.1 _ _ _ _ hv
            simp only
            rw [ihE _ _ _ (by omega)]
        · rfl

/-- The bound `parseJSON` uses is large enough: any larger bound gives the same result. -/
theorem parseValue_fuel (data : Bytes) (n : Nat) :
    parseValue (data.length + 1 + n) 0 (skipSpace data) =
      parseValue (data.length + 1) 0 (skipSpace data) :=
  (parse_fuel (data.length + 1)).1 0 (skipSpace data) n
    (Nat.lt_succ_of_le (skipSpace_length data))


/-! ### Decoded records are valid UTF-8 -/

theorem parseValue_string_stable {fuel d : Nat} {cs s rest : Bytes}
    (h : parseValue fuel d cs = some (JSON.string s, rest)) : utf8.Stable s := by
  cases fuel with
  | zero => simp [parseValue] at h
  | succ fuel =>
    cases cs with
    | nil => simp [parseValue] at h
    | cons c r =>
      rw [parseValue] at h
      split at h
      · split at h
        · rename_i hs
          simp only [Option.some.injEq, Prod.mk.injEq, JSON.string.injEq] at h
          rw [← h.1]
          exact scanString_stable hs
        · simp at h
      · repeat (any_goals (first | (simp at h; done) | split at h))

theorem parseMembers_stable (fuel : Nat) : ∀ (d : Nat) (cs : Bytes)
    (ms : List (Bytes × JSON)) (rest : Bytes), parseMembers fuel d cs = some (ms, rest) →
    ∀ m ∈ ms, ∀ s, m.2 = JSON.string s → utf8.Stable s := by
  induction fuel with
  | zero => intro d cs ms rest h; simp [parseMembers] at h
  | succ fuel ih =>
    intro d cs ms rest h
    cases cs with
    | nil => simp [parseMembers] at h
    | cons c r =>
      rw [parseMembers] at h
      split at h
      · split at h
        · simp at h
        · split at h
          · simp at h
          · split at h
            · split at h
              · simp at h
              · rename_i v rest3 hv
                split at h
                · simp at h
                · split at h
                  · simp only [Option.some.injEq, Prod.mk.injEq] at h
                    intro m hm s hs
                    rw [← h.1] at hm
                    simp only [List.mem_singleton] at hm
                    subst hm
                    simp only at hs
                    subst hs
                    exact parseValue_string_stable hv
                  · split at h
                    · split at h
                      · rename_i ms1 rest5 hm1
                        simp only [Option.some.injEq, Prod.mk.injEq] at h
                        intro m hm s hs
                        rw [← h.1] at hm
                        rcases List.mem_cons.1 hm with hm | hm
                        · subst hm
                          simp only at hs
                          subst hs
                          exact parseValue_string_stable hv
                        · exact ih _ _ _ _ hm1 m hm s hs
                      · simp at h
                    · simp at h
            · simp at h
      · simp at h

theorem parseValue_object_stable {fuel d : Nat} {cs rest : Bytes}
    {ms : List (Bytes × JSON)} (h : parseValue fuel d cs = some (JSON.object ms, rest)) :
    ∀ m ∈ ms, ∀ s, m.2 = JSON.string s → utf8.Stable s := by
  cases fuel with
  | zero => simp [parseValue] at h
  | succ fuel =>
    cases cs with
    | nil => simp [parseValue] at h
    | cons c r =>
      rw [parseValue] at h
      split at h
      · split at h <;> simp at h
      · split at h
        · split at h
          · split at h
            · simp at h
            · split at h
              · simp only [Option.some.injEq, Prod.mk.injEq, JSON.object.injEq] at h
                rw [← h.1]
                intro m hm
                simp at hm
              · split at h
                · rename_i hm1
                  simp only [Option.some.injEq, Prod.mk.injEq, JSON.object.injEq] at h
                  rw [← h.1]
                  exact parseMembers_stable _ _ _ _ _ hm1
                · simp at h
          · simp at h
        · repeat (any_goals (first | (simp at h; done) | split at h))

theorem Fruit.Stable_set {f : Fruit} (hf : f.Stable) (fld : Field) {s : Bytes}
    (hs : utf8.Stable s) : (f.set fld s).Stable := by
  obtain ⟨h1, h2, h3, h4, h5⟩ := hf
  cases fld
  · exact ⟨hs, h2, h3, h4, h5⟩
  · exact ⟨h1, hs, h3, h4, h5⟩
  · exact ⟨h1, h2, hs, h4, h5⟩
  · exact ⟨h1, h2, h3, hs, h5⟩
  · exact ⟨h1, h2, h3, h4, hs⟩

theorem storeMember_stable {st : Fruit × Option JsonError} {m : Bytes × JSON}
    (hst : st.1.Stable) (hm : ∀ s, m.2 = JSON.string s → utf8.Stable s) :
    (storeMember st m).1.Stable := by
  unfold storeMember
  split
  · exact hst
  · split
    · rename_i s hs
      exact Fruit.Stable_set hst _ (hm s hs)
    · exact hst
    · exact hst

theorem foldl_storeMember_stable (ms : List (Bytes × JSON)) :
    ∀ (st : Fruit × Option JsonError), st.1.Stable →
      (∀ m ∈ ms, ∀ s, m.2 = JSON.string s → utf8.Stable s) →
      (ms.foldl storeMember st).1.Stable := by
  induction ms with
  | nil => intro st hst _; exact hst
  | cons m rest ih =>
    intro st hst hms
    simp only [List.foldl]
    exact ih _ (storeMember_stable hst (hms m (List.mem_cons_self _ _)))
      (fun x hx => hms x (List.mem_cons_of_mem _ hx))

/-- Whatever bytes are decoded, the fields of the record `json.Unmarshal` leaves are valid
UTF-8 when they were before. -/
theorem Unmarshal_stable (data : Bytes) {v : Fruit} (hv : v.Stable) :
    (json.Unmarshal data v).1.Stable := by
  unfold json.Unmarshal
  cases hp : parseJSON data with
  | none => exact hv
  | some j =>
    cases j with
    | object members =>
      apply foldl_storeMember_stable _ _ hv
      unfold parseJSON at hp
      split at hp
      · rename_i v1 rest1 hpv
        split at hp
        · simp only [Option.some.injEq] at hp
          subst hp
          exact parseValue_object_stable hpv
        · simp at hp
      · simp at hp
    | null => exact hv
    | bool b => exact hv
    | number => exact hv
    | string s => exact hv
    | array es => exact hv

theorem Fruit.zero_stable : Fruit.zero.Stable :=
  ⟨Stable_nil, Stable_nil, Stable_nil, Stable_nil, Stable_nil⟩

theorem Fruit.coerce_of_stable {f : Fruit} (hf : f.Stable) : f.coerce = f := by
  obtain ⟨h1, h2, h3, h4, h5⟩ := hf
  cases f
  simp only [Fruit.coerce] at *
  rw [Stable_coerce h1, Stable_coerce h2, Stable_coerce h3, Stable_coerce h4,
    Stable_coerce h5]

/-! ## Facts about the world state -/

theorem WorldState.ext_entries {a b : WorldState} (h : a.entries = b.entries) : a = b := by
  cases a; cases b; cases h; rfl

theorem lookupEntry_insertEntry_same (k v : Bytes) (es : List (Bytes × Bytes)) :
    lookupEntry k (insertEntry k v es) = some v := by
  induction es with
  | nil => simp [insertEntry, lookupEntry]
  | cons x rest ih =>
    simp only [insertEntry]
    by_cases h1 : keyLt k x.1 = true
    · simp [h1, lookupEntry]
    · rw [if_neg h1]
      by_cases h2 : keyLt x.1 k = true
      · rw [if_pos h2]
        simp [lookupEntry, keyLt_ne h2, ih]
      · simp [h2, lookupEntry]

theorem lookupEntry_insertEntry_other {k k1 : Bytes} (v : Bytes)
    (es : List (Bytes × Bytes)) (h : k1 ≠ k) :
    lookupEntry k1 (insertEntry k v es) = lookupEntry k1 es := by
  induction es with
  | nil => simp [insertEntry, lookupEntry, Ne.symm h]
  | cons x rest ih =>
    simp only [insertEntry]
    by_cases h1 : keyLt k x.1 = true
    · simp [h1, lookupEntry, Ne.symm h]
    · rw [if_neg h1]
      by_cases h2 : keyLt x.1 k = true
      · rw [if_pos h2]
        simp [lookupEntry, ih]
      · rw [if_neg h2]
        have hk : k = x.1 := keyLt_total (by simpa using h1) (by simpa using h2)
        have hx : x.1 ≠ k1 := by rw [← hk]; exact Ne.symm h
        simp [lookupEntry, Ne.symm h, hx]

theorem lookupEntry_eq_none_iff (k : Bytes) (es : List (Bytes × Bytes)) :
    lookupEntry k es = none ↔ ∀ e ∈ es, e.1 ≠ k := by
  induction es with
  | nil => simp [lookupEntry]
  | cons x rest ih =>
    by_cases hx : x.1 = k
    · simp [lookupEntry, hx]
    · simp [lookupEntry, hx, ih]

theorem mem_of_lookupEntry {k v : Bytes} {es : List (Bytes × Bytes)}
    (h : lookupEntry k es = some v) : (k, v) ∈ es := by
  induction es with
  | nil => simp [lookupEntry] at h
  | cons x rest ih =>
    by_cases hx : x.1 = k
    · simp only [lookupEntry, hx, if_true, Option.some.injEq] at h
      have : x = (k, v) := by rw [← hx, ← h]
      rw [this]; exact List.mem_cons_self _ _
    · simp only [lookupEntry, hx, if_false] at h
      exact List.mem_cons_of_mem _ (ih h)

theorem lookupEntry_of_mem {k v : Bytes} {es : List (Bytes × Bytes)}
    (ha : Ascending es) (h : (k, v) ∈ es) : lookupEntry k es = some v := by
  induction es with
  | nil => simp at h
  | cons x rest ih =>
    have hx := List.pairwise_cons.1 ha
    rcases List.mem_cons.1 h with h | h
    · simp [lookupEntry, ← h]
    · have hne : x.1 ≠ k := keyLt_ne (hx.1 _ h)
      simp only [lookupEntry, hne, if_false]
      exact ih hx.2 h

theorem insertEntry_of_lookupEntry {k v : Bytes} {es : List (Bytes × Bytes)}
    (ha : Ascending es) (h : lookupEntry k es = some v) : insertEntry k v es = es := by
  induction es with
  | nil => simp [lookupEntry] at h
  | cons x rest ih =>
    have hx := List.pairwise_cons.1 ha
    simp only [insertEntry]
    by_cases hxk : x.1 = k
    · simp only [lookupEntry, hxk, if_true, Option.some.injEq] at h
      have hxe : x = (k, v) := by rw [← hxk, ← h]
      simp [← hxk, keyLt_irrefl]
      rw [hxe]
    · simp only [lookupEntry, hxk, if_false] at h
      have hmem := mem_of_lookupEntry h
      have hlt : keyLt x.1 k = true := hx.1 _ hmem
      have hnot : ¬ keyLt k x.1 = true := by
        intro hc
        have := keyLt_trans hlt hc
        rw [keyLt_irrefl] at this
        exact Bool.noConfusion this
      rw [if_neg hnot, if_pos hlt, ih hx.2 h]

theorem PutState_error (ws : WorldState) {k : Bytes} (v : Bytes) (hk : k ≠ []) :
    (PutState ws k v).2 = none := by
  simp [PutState, hk]

theorem PutState_entries {ws : WorldState} {k : Bytes} (v : Bytes) (hk : k ≠ []) :
    (PutState ws k v).1.entries = insertEntry k v ws.entries := by
  simp [PutState, hk]

theorem PutState_empty_key (ws : WorldState) (v : Bytes) :
    PutState ws [] v = (ws, some ErrorKind.InvalidKey) := by
  simp [PutState]

theorem GetState_PutState_same {ws : WorldState} {k : Bytes} (v : Bytes) (hk : k ≠ []) :
    GetState (PutState ws k v).1 k = .ok (some v) := by
  simp [GetState, PutState_entries v hk, lookupEntry_insertEntry_same]

theorem GetState_PutState_other {ws : WorldState} {k k1 : Bytes} (v : Bytes)
    (h : k1 ≠ k) : GetState (PutState ws k v).1 k1 = GetState ws k1 := by
  by_cases hk : k = []
  · simp [PutState, hk]
  · simp [GetState, PutState_entries v hk, lookupEntry_insertEntry_other v _ h]

theorem GetState_empty_key (ws : WorldState) : GetState ws [] = .ok none := by
  simp only [GetState]
  rw [(lookupEntry_eq_none_iff [] ws.entries).2 ws.keysNonEmpty]

theorem PutState_of_GetState {ws : WorldState} {k v : Bytes}
    (h : GetState ws k = .ok (some v)) : (PutState ws k v).1 = ws := by
  have hl : lookupEntry k ws.entries = some v := by
    simpa [GetState] using h
  have hk : k ≠ [] := ws.keysNonEmpty _ (mem_of_lookupEntry hl)
  apply WorldState.ext_entries
  rw [PutState_entries v hk, insertEntry_of_lookupEntry ws.ascending hl]

theorem insertEntry_append (k v : Bytes) (pre : List (Bytes × Bytes))
    (h : ∀ x ∈ pre, keyLt x.1 k = true) : insertEntry k v pre = pre ++ [(k, v)] := by
  induction pre with
  | nil => rfl
  | cons x rest ih =>
    have hx : keyLt x.1 k = true := h x (List.mem_cons_self _ _)
    have hnot : ¬ keyLt k x.1 = true := by
      intro hc
      have := keyLt_trans hx hc
      rw [keyLt_irrefl] at this
      exact Bool.noConfusion this
    simp only [insertEntry, if_neg hnot, if_pos hx, List.cons_append]
    rw [ih (fun y hy => h y (List.mem_cons_of_mem _ hy))]

theorem foldl_PutState_entries (l : List (Bytes × Bytes)) :
    ∀ (pre : List (Bytes × Bytes)) (s : WorldState), s.entries = pre →
      Ascending (pre ++ l) → (∀ e ∈ l, e.1 ≠ []) →
      (l.foldl (fun s p => (PutState s p.1 p.2).1) s).entries = pre ++ l := by
  induction l with
  | nil => intro pre s hs _ _; simpa using hs
  | cons e rest ih =>
    intro pre s hs hasc hne
    simp only [List.foldl]
    have he : e.1 ≠ [] := hne e (List.mem_cons_self _ _)
    have hlt : ∀ x ∈ pre, keyLt x.1 e.1 = true := by
      intro x hx
      have h1 := List.pairwise_append.1 hasc
      exact h1.2.2 x hx e (List.mem_cons_self _ _)
    have hent : (PutState s e.1 e.2).1.entries = pre ++ [e] := by
      rw [PutState_entries _ he, hs, insertEntry_append _ _ _ hlt]
    have := ih (pre ++ [e]) (PutState s e.1 e.2).1 hent
      (by simpa [List.append_assoc] using hasc)
      (fun x hx => hne x (List.mem_cons_of_mem _ hx))
    simpa [List.append_assoc] using this

/-- Every world state arises from the empty one by a sequence of `PutState` calls. -/
theorem WorldState.reachable (ws : WorldState) :
    ∃ puts : List (Bytes × Bytes),
      puts.foldl (fun s p => (PutState s p.1 p.2).1) WorldState.empty = ws := by
  refine ⟨ws.entries, WorldState.ext_entries ?_⟩
  have := foldl_PutState_entries ws.entries [] WorldState.empty rfl
    (by simpa using ws.ascending) ws.keysNonEmpty
  simpa using this

theorem lookupEntry_eq_none_of_lt {k : Bytes} {es : List (Bytes × Bytes)}
    (h : ∀ e ∈ es, keyLt k e.1 = true) : lookupEntry k es = none :=
  (lookupEntry_eq_none_iff k es).2 fun e he => Ne.symm (keyLt_ne (h e he))

theorem ascending_ext : ∀ (a b : List (Bytes × Bytes)), Ascending a → Ascending b →
    (∀ k, lookupEntry k a = lookupEntry k b) → a = b
  | [], [], _, _, _ => rfl
  | [], y :: b, _, _, h => by
    have := h y.1
    simp [lookupEntry] at this
  | x :: a, [], _, _, h => by
    have := h x.1
    simp [lookupEntry] at this
  | x :: a, y :: b, ha, hb, h => by
    have hxa := List.pairwise_cons.1 ha
    have hyb := List.pairwise_cons.1 hb
    have hkey : x.1 = y.1 := by
      by_contra hne
      have h1 : keyLt x.1 y.1 = true ∨ keyLt y.1 x.1 = true := by
        by_contra hc
        simp only [not_or, Bool.not_eq_true] at hc
        exact hne (keyLt_total hc.1 hc.2)
      rcases h1 with h1 | h1
      · have h2 := h x.1
        have h3 : lookupEntry x.1 (y :: b) = none :=
          lookupEntry_eq_none_of_lt (fun e he => by
            rcases List.mem_cons.1 he with he | he
            · rw [he]; exact h1
            · exact keyLt_trans h1 (hyb.1 e he))
        rw [h3] at h2
        simp [lookupEntry] at h2
      · have h2 := h y.1
        have h3 : lookupEntry y.1 (x :: a) = none :=
          lookupEntry_eq_none_of_lt (fun e he => by
            rcases List.mem_cons.1 he with he | he
            · rw [he]; exact h1
            · exact keyLt_trans h1 (hxa.1 e he))
        rw [h3] at h2
        simp [lookupEntry] at h2
    have hval : x.2 = y.2 := by
      have h2 := h x.1
      simpa [lookupEntry, hkey] using h2
    have hxy : x = y := Prod.ext hkey hval
    have htail : a = b := by
      apply ascending_ext a b hxa.2 hyb.2
      intro k
      by_cases hk : x.1 = k
      · rw [lookupEntry_eq_none_of_lt (fun e he => hk ▸ hxa.1 e he),
          lookupEntry_eq_none_of_lt (fun e he => hk ▸ hkey ▸ hyb.1 e he)]
      · have h2 := h k
        have hk2 : ¬ y.1 = k := hkey ▸ hk
        simpa [lookupEntry, hk, hk2] using h2
    rw [hxy, htail]

/-- A world state is determined by what `GetState` returns for each key, however its
entries were inserted. -/
theorem WorldState.ext_GetState {a b : WorldState}
    (h : ∀ k, GetState a k = GetState b k) : a = b := by
  apply WorldState.ext_entries
  apply ascending_ext _ _ a.ascending b.ascending
  intro k
  have := h k
  simpa [GetState] using this

/-- Writes to different keys commute. -/
theorem PutState_comm (ws : WorldState) {k1 k2 : Bytes} (v1 v2 : Bytes) (h : k1 ≠ k2) :
    (PutState (PutState ws k1 v1).1 k2 v2).1 = (PutState (PutState ws k2 v2).1 k1 v1).1 := by
  apply WorldState.ext_GetState
  intro k
  by_cases e1 : k1 = []
  · subst e1; simp [PutState_empty_key]
  by_cases e2 : k2 = []
  · subst e2; simp [PutState_empty_key]
  by_cases hk1 : k = k1
  · subst hk1
    rw [GetState_PutState_other v2 h, GetState_PutState_same v1 e1,
      GetState_PutState_same v1 e1]
  · by_cases hk2 : k = k2
    · subst hk2
      rw [GetState_PutState_same v2 e2, GetState_PutState_other v1 hk1,
        GetState_PutState_same v2 e2]
    · rw [GetState_PutState_other v2 hk2, GetState_PutState_other v1 hk1,
        GetState_PutState_other v1 hk1, GetState_PutState_other v2 hk2]


/-! ## Facts about the operations -/

theorem Createfruit_eq {k : Bytes} (ws : WorldState) (sn n o d ow : Bytes) (hk : k ≠ []) :
    Createfruit ws k sn n o d ow = ((PutState ws k (json.Marshal ⟨sn, n, o, d, ow⟩).1).1, none) := by
  have h := PutState_error ws (json.Marshal ⟨sn, n, o, d, ow⟩).1 hk
  simp only [Createfruit]
  generalize PutState ws k (json.Marshal ⟨sn, n, o, d, ow⟩).1 = p at h
  obtain ⟨s, e⟩ := p
  simp only at h
  subst h
  rfl

theorem Queryfruit_of_GetState {ws : WorldState} {k v : Bytes}
    (h : GetState ws k = .ok (some v)) :
    Queryfruit ws k = .ok (json.Unmarshal v Fruit.zero).1 := by
  simp [Queryfruit, h]

theorem Queryfruit_of_absent {ws : WorldState} {k : Bytes}
    (h : GetState ws k = .ok none) :
    Queryfruit ws k = .error (GoError.errorf (k ++ str " does not exist")) := by
  simp [Queryfruit, h]

theorem GetState_cases (ws : WorldState) (k : Bytes) :
    GetState ws k = .ok none ∨ ∃ v, GetState ws k = .ok (some v) := by
  simp only [GetState]
  cases lookupEntry k ws.entries with
  | none => exact Or.inl rfl
  | some v => exact Or.inr ⟨v, rfl⟩

/-- A record that `Queryfruit` returns has fields that are valid UTF-8. -/
theorem Queryfruit_stable {ws : WorldState} {k : Bytes} {f : Fruit}
    (h : Queryfruit ws k = .ok f) : f.Stable := by
  rcases GetState_cases ws k with h0 | ⟨v, hv⟩
  · rw [Queryfruit_of_absent h0] at h
    exact Except.noConfusion h
  · rw [Queryfruit_of_GetState hv] at h
    injection h with h
    rw [← h]
    exact Unmarshal_stable v Fruit.zero_stable

theorem Queryfruit_PutState_Marshal {ws : WorldState} {k : Bytes} (f : Fruit)
    (hk : k ≠ []) : Queryfruit (PutState ws k (json.Marshal f).1).1 k = .ok f.coerce := by
  rw [Queryfruit_of_GetState (GetState_PutState_same _ hk), Unmarshal_Marshal]

/-- What reading back a created record gives: the five strings, each made valid UTF-8. -/
theorem Queryfruit_Createfruit (ws : WorldState) (k sn n o d ow : Bytes) (hk : k ≠ []) :
    (Createfruit ws k sn n o d ow).2 = none ∧
      Queryfruit (Createfruit ws k sn n o d ow).1 k =
        .ok ⟨utf8.coerce 0 sn, utf8.coerce 0 n, utf8.coerce 0 o, utf8.coerce 0 d,
             utf8.coerce 0 ow⟩ := by
  rw [Createfruit_eq ws _ _ _ _ _ hk]
  exact ⟨rfl, Queryfruit_PutState_Marshal _ hk⟩

theorem ChangefruitOwner_of_GetState {ws : WorldState} {k v : Bytes} (x : Bytes)
    (h : GetState ws k = .ok (some v)) :
    ChangefruitOwner ws k x =
      ((PutState ws k (json.Marshal
        { (json.Unmarshal v Fruit.zero).1 with
          Owner := (json.Unmarshal v Fruit.zero).1.Owner ++ str "-" ++ x }).1).1, none) := by
  have hl : lookupEntry k ws.entries = some v := by simpa [GetState] using h
  have hk : k ≠ [] := ws.keysNonEmpty _ (mem_of_lookupEntry hl)
  simp only [ChangefruitOwner, Queryfruit_of_GetState h]
  have he := PutState_error ws (json.Marshal
        { (json.Unmarshal v Fruit.zero).1 with
          Owner := (json.Unmarshal v Fruit.zero).1.Owner ++ str "-" ++ x }).1 hk
  generalize PutState ws k (json.Marshal
        { (json.Unmarshal v Fruit.zero).1 with
          Owner := (json.Unmarshal v Fruit.zero).1.Owner ++ str "-" ++ x }).1 = p at he
  obtain ⟨s, e⟩ := p
  simp only at he
  subst he
  rfl

theorem ChangefruitOwner_of_absent {ws : WorldState} {k : Bytes} (x : Bytes)
    (h : GetState ws k = .ok none) :
    ChangefruitOwner ws k x = (ws, some (GoError.errorf (k ++ str " does not exist"))) := by
  simp [ChangefruitOwner, Queryfruit_of_absent h]

/-- What a transfer does to a key that holds a record: it succeeds and the record read
back afterwards is the record read before with `-` and the new owner, made valid UTF-8,
appended to its owner. -/
theorem ChangefruitOwner_of_Queryfruit {ws : WorldState} {k : Bytes} {f : Fruit}
    (x : Bytes) (h : Queryfruit ws k = .ok f) :
    (ChangefruitOwner ws k x).2 = none ∧
      Queryfruit (ChangefruitOwner ws k x).1 k =
        .ok { f with Owner := f.Owner ++ str "-" ++ utf8.coerce 0 x } := by
  have hst := Queryfruit_stable h
  rcases GetState_cases ws k with h0 | ⟨v, hv⟩
  · rw [Queryfruit_of_absent h0] at h
    exact Except.noConfusion h
  · have hl : lookupEntry k ws.entries = some v := by simpa [GetState] using hv
    have hk : k ≠ [] := ws.keysNonEmpty _ (mem_of_lookupEntry hl)
    rw [Queryfruit_of_GetState hv] at h
    have hf : (json.Unmarshal v Fruit.zero).1 = f := by
      injection h
    rw [ChangefruitOwner_of_GetState x hv, hf]
    refine ⟨rfl, ?_⟩
    rw [Queryfruit_PutState_Marshal _ hk]
    obtain ⟨h1, h2, h3, h4, h5⟩ := hst
    have ho : utf8.coerce 0 (f.Owner ++ str "-" ++ x) =
        f.Owner ++ str "-" ++ utf8.coerce 0 x := by
      rw [(Stable_append h5 (Stable_str "-")) x]
    simp only [Fruit.coerce, Stable_coerce h1, Stable_coerce h2, Stable_coerce h3,
      Stable_coerce h4, ho]

theorem QueryAllfruits_loop_eq (es : List (Bytes × Bytes)) (acc : List QueryResult) :
    QueryAllfruits.loop (es.map Except.ok) acc =
      .ok (acc ++ es.map fun e => ⟨e.1, (json.Unmarshal e.2 Fruit.zero).1⟩) := by
  induction es generalizing acc with
  | nil => simp [QueryAllfruits.loop]
  | cons e rest ih => simp [QueryAllfruits.loop, ih]

theorem QueryAllfruits_eq (ws : WorldState) :
    QueryAllfruits ws =
      .ok ((ws.entries.filter fun e =>
          keyLe (str "fruit0") e.1 && keyLt e.1 (str "fruit99")).map
        fun e => ⟨e.1, (json.Unmarshal e.2 Fruit.zero).1⟩) := by
  simp [QueryAllfruits, GetStateByRange, QueryAllfruits_loop_eq]

theorem saveError_storeMember (members : List (Bytes × JSON))
    (st : Fruit × Option JsonError) (h : st.2 ≠ some JsonError.SyntaxError) :
    (members.foldl storeMember st).2 ≠ some JsonError.SyntaxError := by
  induction members generalizing st with
  | nil => simpa using h
  | cons m rest ih =>
    simp only [List.foldl]
    apply ih
    unfold storeMember
    split
    · exact h
    · split
      · exact h
      · exact h
      · cases hs : st.2 with
        | none => simp [saveError]
        | some e => rw [hs] at h; simpa [saveError] using h

/-- A syntax error leaves the record decoded into untouched. -/
theorem Unmarshal_SyntaxError {data : Bytes} {v : Fruit}
    (h : (json.Unmarshal data v).2 = some JsonError.SyntaxError) :
    (json.Unmarshal data v).1 = v := by
  unfold json.Unmarshal at h ⊢
  cases hp : parseJSON data with
  | none => rfl
  | some j =>
    rw [hp] at h
    cases j with
    | object members => exact absurd h (saveError_storeMember _ (v, none) (by simp))
    | null => rfl
    | bool b => rfl
    | number => rfl
    | string s => rfl
    | array es => rfl

/-! ## The claims -/

set_option maxRecDepth 100000

/-- C1, as the claim states it, fails: `Createfruit` is given the serial number `\xff`, a
string of one byte that is not valid UTF-8; both calls succeed, and the serial number read
back is U+FFFD (three bytes), not the string that was passed. -/
theorem Createfruit_then_Queryfruit_counterexample :
    (Createfruit WorldState.empty (str "fruit1") [Byte.ofNat 0xFF] (str "Grape")
        (str "South Africa") (str "2020/07/01") (str "Walmart")).2 = none ∧
      Queryfruit (Createfruit WorldState.empty (str "fruit1") [Byte.ofNat 0xFF] (str "Grape")
        (str "South Africa") (str "2020/07/01") (str "Walmart")).1 (str "fruit1") =
        .ok { SerialNum := str "\uFFFD", Name := str "Grape", Origin := str "South Africa",
              Date := str "2020/07/01", Owner := str "Walmart" } ∧
      str "\uFFFD" ≠ [Byte.ofNat 0xFF] := by
  decide

/-- C1 (amended). For every non-empty key and every world state: for every five field
strings that are valid UTF-8 (the bytes of five texts), `Createfruit` succeeds, and
`Queryfruit` of the same key on the state it leaves succeeds and returns the record made
of exactly those five strings; for every five field strings whatsoever the two calls
succeed as well, and each field is read back made valid UTF-8, every byte that starts no
valid encoding replaced by U+FFFD. -/
theorem Createfruit_then_Queryfruit (ws : WorldState) (k : Bytes) (hk : k ≠ []) :
    (∀ serialNum name origin date owner : String,
      (Createfruit ws k (str serialNum) (str name) (str origin) (str date)
        (str owner)).2 = none ∧
      Queryfruit (Createfruit ws k (str serialNum) (str name) (str origin) (str date)
        (str owner)).1 k =
        .ok { SerialNum := str serialNum, Name := str name, Origin := str origin,
              Date := str date, Owner := str owner }) ∧
    (∀ serialNum name origin date owner : Bytes,
      (Createfruit ws k serialNum name origin date owner).2 = none ∧
      Queryfruit (Createfruit ws k serialNum name origin date owner).1 k =
        .ok { SerialNum := utf8.coerce 0 serialNum, Name := utf8.coerce 0 name,
              Origin := utf8.coerce 0 origin, Date := utf8.coerce 0 date,
              Owner := utf8.coerce 0 owner }) := by
  constructor
  · intro sn n o d ow
    rw [Createfruit_eq ws _ _ _ _ _ hk]
    refine ⟨rfl, ?_⟩
    rw [Queryfruit_of_GetState (GetState_PutState_same _ hk), Unmarshal_Marshal]
    simp only [Fruit.coerce, coerce_str]
  · intro sn n o d ow
    rw [Createfruit_eq ws _ _ _ _ _ hk]
    refine ⟨rfl, ?_⟩
    rw [Queryfruit_of_GetState (GetState_PutState_same _ hk), Unmarshal_Marshal]
    rfl

/-- C1 (amended) at a concrete input: a record whose fields need escaping or lie outside
ASCII, created in the seeded ledger and read back. -/
theorem Createfruit_then_Queryfruit_witness :
    str "fruit7" ≠ [] ∧
    (Createfruit (InitLedger WorldState.empty).1 (str "fruit7") (str "7") (str "Ki\"wi")
        (str "Nouvelle\nZélande") (str "2021/03/01") (str "Metro <&> Co")).2 = none ∧
      Queryfruit (Createfruit (InitLedger WorldState.empty).1 (str "fruit7") (str "7")
        (str "Ki\"wi") (str "Nouvelle\nZélande") (str "2021/03/01")
        (str "Metro <&> Co")).1 (str "fruit7") =
        .ok { SerialNum := str "7", Name := str "Ki\"wi", Origin := str "Nouvelle\nZélande",
              Date := str "2021/03/01", Owner := str "Metro <&> Co" } :=
  ⟨by decide,
   (Createfruit_then_Queryfruit (InitLedger WorldState.empty).1 (str "fruit7")
     (by decide)).1 "7" "Ki\"wi" "Nouvelle\nZélande" "2021/03/01" "Metro <&> Co"⟩

/-- C9 (empty key rejected on create). For every world state and every five field
strings, `Createfruit` with the empty key fails with the invalid-key error of the world
state and leaves the world state unchanged. -/
theorem Createfruit_empty_key (ws : WorldState) (serialNum name origin date owner : Bytes) :
    Createfruit ws (str "") serialNum name origin date owner =
      (ws, some (GoError.host ErrorKind.InvalidKey)) := by
  have : str "" = [] := rfl
  simp [this, Createfruit, PutState_empty_key]

/-- C3 (not found). For every world state and every key with no entry in it, `Queryfruit`
returns an error and no record, and `ChangefruitOwner` returns that error for every new
owner (and leaves the state as it was); conversely, for a key that has an entry
`Queryfruit` returns a record, not an error. -/
theorem Queryfruit_not_found (ws : WorldState) (k : Bytes) :
    ((∀ e ∈ ws.entries, e.1 ≠ k) →
      Queryfruit ws k = .error (GoError.errorf (k ++ str " does not exist")) ∧
      ∀ x, ChangefruitOwner ws k x =
        (ws, some (GoError.errorf (k ++ str " does not exist")))) ∧
    (∀ v, (k, v) ∈ ws.entries → ∃ f, Queryfruit ws k = .ok f) := by
  constructor
  · intro h
    have hg : GetState ws k = .ok none := by
      simp only [GetState]
      rw [(lookupEntry_eq_none_iff k ws.entries).2 h]
    exact ⟨Queryfruit_of_absent hg, fun x => ChangefruitOwner_of_absent x hg⟩
  · intro v hv
    have hg : GetState ws k = .ok (some v) := by
      simp only [GetState]
      rw [lookupEntry_of_mem ws.ascending hv]
    exact ⟨_, Queryfruit_of_GetState hg⟩

/-- C3 at concrete inputs: an absent key of the seeded ledger, and a present key. -/
theorem Queryfruit_not_found_witness :
    (∀ e ∈ (InitLedger WorldState.empty).1.entries, e.1 ≠ str "nonexistent") ∧
    (Queryfruit (InitLedger WorldState.empty).1 (str "nonexistent") =
        .error (GoError.errorf (str "nonexistent" ++ str " does not exist")) ∧
      ∀ x, ChangefruitOwner (InitLedger WorldState.empty).1 (str "nonexistent") x =
        ((InitLedger WorldState.empty).1,
          some (GoError.errorf (str "nonexistent" ++ str " does not exist")))) ∧
    (str "fruit1", str "xyz") ∈
      (PutState WorldState.empty (str "fruit1") (str "xyz")).1.entries ∧
    ∃ f, Queryfruit (PutState WorldState.empty (str "fruit1") (str "xyz")).1 (str "fruit1") =
      .ok f :=
  ⟨by decide,
   (Queryfruit_not_found (InitLedger WorldState.empty).1 (str "nonexistent")).1 (by decide),
   by decide,
   (Queryfruit_not_found (PutState WorldState.empty (str "fruit1") (str "xyz")).1
     (str "fruit1")).2 (str "xyz") (by decide)⟩

/-- C7, as the claim states it, fails: the key `fruit1` holds the bytes `not json`, which
are no encoding of a `Fruit` (decoding them is a syntax error), and `Queryfruit` still
succeeds, returning the zero record. -/
theorem Queryfruit_decode_error_counterexample :
    GetState (PutState WorldState.empty (str "fruit1") (str "not json")).1 (str "fruit1") =
        .ok (some (str "not json")) ∧
      (json.Unmarshal (str "not json") Fruit.zero).2 = some JsonError.SyntaxError ∧
      Queryfruit (PutState WorldState.empty (str "fruit1") (str "not json")).1
        (str "fruit1") = .ok Fruit.zero := by
  decide

/-- C7 (amended). For every key whose stored bytes are present but do not decode as a
`Fruit`, `Queryfruit` does not fail: the decode error is dropped and the call returns the
record the failed decode left in a fresh `Fruit`, which is the zero record (five empty
fields) when the bytes are not JSON at all. -/
theorem Queryfruit_drops_decode_error (ws : WorldState) (k v : Bytes)
    (hv : GetState ws k = .ok (some v)) (_hbad : (json.Unmarshal v Fruit.zero).2 ≠ none) :
    Queryfruit ws k = .ok (json.Unmarshal v Fruit.zero).1 ∧
      ((json.Unmarshal v Fruit.zero).2 = some JsonError.SyntaxError →
        Queryfruit ws k = .ok Fruit.zero) := by
  refine ⟨Queryfruit_of_GetState hv, fun hs => ?_⟩
  rw [Queryfruit_of_GetState hv, Unmarshal_SyntaxError hs]

/-- C7 (amended) at a concrete input: a stored object whose `Owner` is a number decodes with
a type error, and the record is returned with the fields decoded before and after it. -/
theorem Queryfruit_drops_decode_error_witness :
    GetState (PutState WorldState.empty (str "fruit2")
        (str "\x7b\"Name\":\"Pear\",\"Owner\":7\x7d")).1 (str "fruit2") =
        .ok (some (str "\x7b\"Name\":\"Pear\",\"Owner\":7\x7d")) ∧
      (json.Unmarshal (str "\x7b\"Name\":\"Pear\",\"Owner\":7\x7d") Fruit.zero).2 ≠ none ∧
      Queryfruit (PutState WorldState.empty (str "fruit2")
        (str "\x7b\"Name\":\"Pear\",\"Owner\":7\x7d")).1 (str "fruit2") =
        .ok { SerialNum := str "", Name := str "Pear", Origin := str "", Date := str "",
              Owner := str "" } :=
  ⟨by decide, by decide,
   (Queryfruit_drops_decode_error
     (PutState WorldState.empty (str "fruit2")
       (str "\x7b\"Name\":\"Pear\",\"Owner\":7\x7d")).1
     (str "fruit2") (str "\x7b\"Name\":\"Pear\",\"Owner\":7\x7d")
     (by decide) (by decide)).1⟩

/-- C10 (frame of an ownership transfer). For every world state, key and new owner: a
successful `ChangefruitOwner` changes only the owner of the record at the key (the record
read back afterwards has the `SerialNum`, `Name`, `Origin` and `Date` of the record read
before, and its owner is the owner read before followed by `-` and the new owner made
valid UTF-8, which is the new owner itself when that is valid UTF-8) and leaves the entry
of every other key as it was; a failing `ChangefruitOwner` leaves the whole world state
unchanged, the key being absent before and after. -/
theorem ChangefruitOwner_frame (ws : WorldState) (k x : Bytes) :
    ((ChangefruitOwner ws k x).2 = none →
      ∃ f g, Queryfruit ws k = .ok f ∧
        Queryfruit (ChangefruitOwner ws k x).1 k = .ok g ∧
        g.SerialNum = f.SerialNum ∧ g.Name = f.Name ∧ g.Origin = f.Origin ∧
        g.Date = f.Date ∧ g.Owner = f.Owner ++ str "-" ++ utf8.coerce 0 x ∧
        (∀ t : String, x = str t → g.Owner = f.Owner ++ str "-" ++ x) ∧
        ∀ k1, k1 ≠ k → GetState (ChangefruitOwner ws k x).1 k1 = GetState ws k1) ∧
    ((ChangefruitOwner ws k x).2 ≠ none →
      (ChangefruitOwner ws k x).1 = ws ∧ GetState ws k = .ok none ∧
        GetState (ChangefruitOwner ws k x).1 k = .ok none) := by
  rcases GetState_cases ws k with h0 | ⟨v, hv⟩
  · rw [ChangefruitOwner_of_absent x h0]
    exact ⟨fun h => by simp at h, fun _ => ⟨rfl, h0, h0⟩⟩
  · have hq := Queryfruit_of_GetState hv
    have hc := ChangefruitOwner_of_Queryfruit x hq
    refine ⟨fun _ => ⟨_, _, hq, hc.2, rfl, rfl, rfl, rfl, rfl, ?_, ?_⟩,
      fun h => absurd hc.1 h⟩
    · intro t ht
      simp only [ht, coerce_str]
    · intro k1 hk1
      rw [ChangefruitOwner_of_GetState x hv]
      exact GetState_PutState_other _ hk1

/-- C10 at concrete inputs: a transfer of `fruit2` in the seeded ledger succeeds, a transfer
of the absent `fruit9` fails. -/
theorem ChangefruitOwner_frame_witness :
    ((ChangefruitOwner (InitLedger WorldState.empty).1 (str "fruit2") (str "Metro")).2 = none ∧
      ∃ f g, Queryfruit (InitLedger WorldState.empty).1 (str "fruit2") = .ok f ∧
        Queryfruit (ChangefruitOwner (InitLedger WorldState.empty).1 (str "fruit2")
          (str "Metro")).1 (str "fruit2") = .ok g ∧
        g.SerialNum = f.SerialNum ∧ g.Name = f.Name ∧ g.Origin = f.Origin ∧
        g.Date = f.Date ∧ g.Owner = f.Owner ++ str "-" ++ utf8.coerce 0 (str "Metro") ∧
        (∀ t : String, str "Metro" = str t → g.Owner = f.Owner ++ str "-" ++ str "Metro") ∧
        ∀ k1, k1 ≠ str "fruit2" →
          GetState (ChangefruitOwner (InitLedger WorldState.empty).1 (str "fruit2")
            (str "Metro")).1 k1 = GetState (InitLedger WorldState.empty).1 k1) ∧
    ((ChangefruitOwner (InitLedger WorldState.empty).1 (str "fruit9") (str "Metro")).2 ≠ none ∧
      (ChangefruitOwner (InitLedger WorldState.empty).1 (str "fruit9") (str "Metro")).1 =
        (InitLedger WorldState.empty).1 ∧
      GetState (InitLedger WorldState.empty).1 (str "fruit9") = .ok none ∧
      GetState (ChangefruitOwner (InitLedger WorldState.empty).1 (str "fruit9")
        (str "Metro")).1 (str "fruit9") = .ok none) :=
  ⟨⟨by decide,
    (ChangefruitOwner_frame (InitLedger WorldState.empty).1 (str "fruit2") (str "Metro")).1
      (by decide)⟩,
   ⟨by decide,
    (ChangefruitOwner_frame (InitLedger WorldState.empty).1 (str "fruit9") (str "Metro")).2
      (by decide)⟩⟩

/-- C2, as the claim states it, fails: `fruit0` holds a record with owner `Walmart`; the
first new owner is `\xff`, a string of one byte that is not valid UTF-8, the second is
`IGA`; both transfers succeed, and the owner read back is `Walmart-`, U+FFFD, `-IGA`, not
`Walmart-` followed by the byte `\xff` and `-IGA`. -/
theorem ChangefruitOwner_appends_counterexample :
    Queryfruit (InitLedger WorldState.empty).1 (str "fruit0") =
        .ok { SerialNum := str "1", Name := str "Grape", Origin := str "South Africa",
              Date := str "2020/07/01", Owner := str "Walmart" } ∧
      (ChangefruitOwner (InitLedger WorldState.empty).1 (str "fruit0")
        [Byte.ofNat 0xFF]).2 = none ∧
      (ChangefruitOwner (ChangefruitOwner (InitLedger WorldState.empty).1 (str "fruit0")
        [Byte.ofNat 0xFF]).1 (str "fruit0") (str "IGA")).2 = none ∧
      Queryfruit (ChangefruitOwner (ChangefruitOwner (InitLedger WorldState.empty).1
        (str "fruit0") [Byte.ofNat 0xFF]).1 (str "fruit0") (str "IGA")).1 (str "fruit0") =
        .ok { SerialNum := str "1", Name := str "Grape", Origin := str "South Africa",
              Date := str "2020/07/01", Owner := str "Walmart-\uFFFD-IGA" } ∧
      str "Walmart-\uFFFD-IGA" ≠ str "Walmart" ++ str "-" ++ [Byte.ofNat 0xFF] ++ str "-" ++
        str "IGA" := by
  decide

/-- C2 (amended). For every key that holds a record: for every two new owners that are
valid UTF-8 (the bytes of two texts), two calls of `ChangefruitOwner` in a row both
succeed and leave at the key the record whose owner is the initial owner followed by `-`,
the first new owner, `-` and the second new owner, its other fields being as before; for
every two new owners whatsoever the two calls succeed as well, and each new owner is
appended made valid UTF-8, every byte that starts no valid encoding replaced by U+FFFD.
In the scenario of the claim, from any world state, the owner read back after one transfer
is `CostCo-BJs`. -/
theorem ChangefruitOwner_appends :
    (∀ (ws : WorldState) (k : Bytes) (o1 o2 : String) (f : Fruit),
      Queryfruit ws k = .ok f →
      (ChangefruitOwner ws k (str o1)).2 = none ∧
      (ChangefruitOwner (ChangefruitOwner ws k (str o1)).1 k (str o2)).2 = none ∧
      Queryfruit (ChangefruitOwner (ChangefruitOwner ws k (str o1)).1 k (str o2)).1 k =
        .ok { f with Owner := f.Owner ++ str "-" ++ str o1 ++ str "-" ++ str o2 }) ∧
    (∀ (ws : WorldState) (k o1 o2 : Bytes) (f : Fruit), Queryfruit ws k = .ok f →
      (ChangefruitOwner ws k o1).2 = none ∧
      (ChangefruitOwner (ChangefruitOwner ws k o1).1 k o2).2 = none ∧
      Queryfruit (ChangefruitOwner (ChangefruitOwner ws k o1).1 k o2).1 k =
        .ok { f with
          Owner := f.Owner ++ str "-" ++ utf8.coerce 0 o1 ++ str "-" ++ utf8.coerce 0 o2 }) ∧
    (∀ ws : WorldState,
      (Createfruit ws (str "record10") (str "9") (str "Mango") (str "Mexico")
        (str "2021/01/01") (str "CostCo")).2 = none ∧
      (ChangefruitOwner
        (Createfruit ws (str "record10") (str "9") (str "Mango") (str "Mexico")
          (str "2021/01/01") (str "CostCo")).1 (str "record10") (str "BJs")).2 = none ∧
      Queryfruit (ChangefruitOwner
        (Createfruit ws (str "record10") (str "9") (str "Mango") (str "Mexico")
          (str "2021/01/01") (str "CostCo")).1 (str "record10") (str "BJs")).1
        (str "record10") =
        .ok { SerialNum := str "9", Name := str "Mango", Origin := str "Mexico",
              Date := str "2021/01/01", Owner := str "CostCo-BJs" }) := by
  have general : ∀ (ws : WorldState) (k o1 o2 : Bytes) (f : Fruit), Queryfruit ws k = .ok f →
      (ChangefruitOwner ws k o1).2 = none ∧
      (ChangefruitOwner (ChangefruitOwner ws k o1).1 k o2).2 = none ∧
      Queryfruit (ChangefruitOwner (ChangefruitOwner ws k o1).1 k o2).1 k =
        .ok { f with
          Owner := f.Owner ++ str "-" ++ utf8.coerce 0 o1 ++ str "-" ++ utf8.coerce 0 o2 } := by
    intro ws k o1 o2 f h
    have h1 := ChangefruitOwner_of_Queryfruit o1 h
    have h2 := ChangefruitOwner_of_Queryfruit o2 h1.2
    exact ⟨h1.1, h2.1, h2.2⟩
  refine ⟨?_, general, ?_⟩
  · intro ws k o1 o2 f h
    have := general ws k (str o1) (str o2) f h
    simpa only [coerce_str] using this
  · intro ws
    have h0 := Queryfruit_Createfruit ws (str "record10") (str "9") (str "Mango")
      (str "Mexico") (str "2021/01/01") (str "CostCo") (by decide)
    have h1 := ChangefruitOwner_of_Queryfruit (str "BJs") h0.2
    refine ⟨h0.1, h1.1, ?_⟩
    rw [h1.2]
    simp only [coerce_str]
    rfl

/-- C2 (amended) at a concrete input: two transfers of `fruit0` in the seeded ledger. -/
theorem ChangefruitOwner_appends_witness :
    Queryfruit (InitLedger WorldState.empty).1 (str "fruit0") =
        .ok { SerialNum := str "1", Name := str "Grape", Origin := str "South Africa",
              Date := str "2020/07/01", Owner := str "Walmart" } ∧
      (ChangefruitOwner (InitLedger WorldState.empty).1 (str "fruit0") (str "Metro")).2 =
        none ∧
      (ChangefruitOwner (ChangefruitOwner (InitLedger WorldState.empty).1 (str "fruit0")
        (str "Metro")).1 (str "fruit0") (str "IGA")).2 = none ∧
      Queryfruit (ChangefruitOwner
        (ChangefruitOwner (InitLedger WorldState.empty).1 (str "fruit0") (str "Metro")).1
        (str "fruit0") (str "IGA")).1 (str "fruit0") =
        .ok { SerialNum := str "1", Name := str "Grape", Origin := str "South Africa",
              Date := str "2020/07/01",
              Owner := str "Walmart" ++ str "-" ++ str "Metro" ++ str "-" ++ str "IGA" } :=
  ⟨by decide,
   ChangefruitOwner_appends.1 (InitLedger WorldState.empty).1 (str "fruit0") "Metro" "IGA"
     { SerialNum := str "1", Name := str "Grape", Origin := str "South Africa",
       Date := str "2020/07/01", Owner := str "Walmart" } (by decide)⟩

/-- C5, as the claim states it, fails: a record stored under `fruit1` is returned by
`QueryAllfruits`, and `fruit1` lies below `record0`. -/
theorem QueryAllfruits_bounds_counterexample :
    QueryAllfruits (Createfruit WorldState.empty (str "fruit1") (str "1") (str "Grape")
        (str "South Africa") (str "2020/07/01") (str "Walmart")).1 =
      .ok [{ Key := str "fruit1",
             Record := { SerialNum := str "1", Name := str "Grape",
                         Origin := str "South Africa", Date := str "2020/07/01",
                         Owner := str "Walmart" } }] ∧
      keyLt (str "fruit1") (str "record0") = true := by
  decide

/-- C5 (amended). For every world state, every result returned by `QueryAllfruits` has a
key `k` with `"fruit0" <= k` and `k < "fruit99"` in lexicographic byte order: no key below
`fruit0` and no key at or above `fruit99` is ever returned. -/
theorem QueryAllfruits_bounds (ws : WorldState) (rs : List QueryResult)
    (h : QueryAllfruits ws = .ok rs) (r : QueryResult) (hr : r ∈ rs) :
    keyLe (str "fruit0") r.Key = true ∧ keyLt r.Key (str "fruit99") = true := by
  rw [QueryAllfruits_eq] at h
  injection h with h
  subst h
  obtain ⟨e, he, rfl⟩ := List.mem_map.1 hr
  simpa using (List.mem_filter.1 he).2

/-- C5 (amended) at a concrete input: of the keys `apple`, `fruit5` and `fruit99` only
`fruit5` is returned. -/
theorem QueryAllfruits_bounds_witness :
    QueryAllfruits (PutState (PutState (PutState WorldState.empty (str "fruit5")
        (str "a")).1 (str "fruit99") (str "b")).1 (str "apple") (str "c")).1 =
      .ok [{ Key := str "fruit5", Record := Fruit.zero }] ∧
    ({ Key := str "fruit5", Record := Fruit.zero } : QueryResult) ∈
      [({ Key := str "fruit5", Record := Fruit.zero } : QueryResult)] ∧
    keyLe (str "fruit0") (str "fruit5") = true ∧
    keyLt (str "fruit5") (str "fruit99") = true :=
  ⟨by decide, by decide,
   QueryAllfruits_bounds
     (PutState (PutState (PutState WorldState.empty (str "fruit5") (str "a")).1
       (str "fruit99") (str "b")).1 (str "apple") (str "c")).1
     [{ Key := str "fruit5", Record := Fruit.zero }] (by decide)
     { Key := str "fruit5", Record := Fruit.zero } (by decide)⟩

/-- C6, as the claim states it, fails: the entry at `fruit2`, inside the scanned range,
holds bytes that do not decode (a syntax error), and `QueryAllfruits` returns a list all
the same, with the zero record for that entry. -/
theorem QueryAllfruits_decode_error_counterexample :
    (json.Unmarshal (str "not json") Fruit.zero).2 = some JsonError.SyntaxError ∧
    QueryAllfruits
        (PutState (Createfruit WorldState.empty (str "fruit1") (str "1") (str "Grape")
          (str "South Africa") (str "2020/07/01") (str "Walmart")).1 (str "fruit2")
          (str "not json")).1 =
      .ok [{ Key := str "fruit1",
             Record := { SerialNum := str "1", Name := str "Grape",
                         Origin := str "South Africa", Date := str "2020/07/01",
                         Owner := str "Walmart" } },
           { Key := str "fruit2", Record := Fruit.zero }] := by
  decide

/-- C6 (amended). `QueryAllfruits` does not fail on a decode error: for every world state
in which an entry inside the scanned key range holds bytes that do not decode as a
`Fruit`, it returns a result list with one result for each entry in the range, the decode
error being dropped; the result of the entry that does not decode carries the record the
failed decode left in a fresh `Fruit`, which is the zero record (five empty fields) when
the bytes are not JSON at all. -/
theorem QueryAllfruits_drops_decode_error (ws : WorldState) (k v : Bytes)
    (hmem : (k, v) ∈ ws.entries)
    (hlo : keyLe (str "fruit0") k = true) (hhi : keyLt k (str "fruit99") = true)
    (_hbad : (json.Unmarshal v Fruit.zero).2 ≠ none) :
    ∃ rs, QueryAllfruits ws = .ok rs ∧
      rs.map QueryResult.Key =
        (ws.entries.filter fun e =>
          keyLe (str "fruit0") e.1 && keyLt e.1 (str "fruit99")).map Prod.fst ∧
      { Key := k, Record := (json.Unmarshal v Fruit.zero).1 } ∈ rs ∧
      ((json.Unmarshal v Fruit.zero).2 = some JsonError.SyntaxError →
        { Key := k, Record := Fruit.zero } ∈ rs) := by
  have hin : ({ Key := k, Record := (json.Unmarshal v Fruit.zero).1 } : QueryResult) ∈
      (ws.entries.filter fun e =>
          keyLe (str "fruit0") e.1 && keyLt e.1 (str "fruit99")).map
        fun e => ({ Key := e.1, Record := (json.Unmarshal e.2 Fruit.zero).1 } : QueryResult) := by
    refine List.mem_map.2 ⟨(k, v), List.mem_filter.2 ⟨hmem, ?_⟩, rfl⟩
    simp [hlo, hhi]
  refine ⟨_, QueryAllfruits_eq ws, ?_, hin, fun hs => ?_⟩
  · simp [List.map_map, Function.comp_def]
  · rw [Unmarshal_SyntaxError hs] at hin
    exact hin

/-- C6 (amended) at concrete inputs: the seeded ledger with `fruit3` overwritten by bytes
that are not JSON, whose result carries the zero record. -/
theorem QueryAllfruits_drops_decode_error_witness :
    (str "fruit3", str "not json") ∈
        (PutState (InitLedger WorldState.empty).1 (str "fruit3")
          (str "not json")).1.entries ∧
      keyLe (str "fruit0") (str "fruit3") = true ∧
      keyLt (str "fruit3") (str "fruit99") = true ∧
      (json.Unmarshal (str "not json") Fruit.zero).2 ≠ none ∧
      ∃ rs, QueryAllfruits (PutState (InitLedger WorldState.empty).1 (str "fruit3")
          (str "not json")).1 = .ok rs ∧
        rs.map QueryResult.Key =
          ((PutState (InitLedger WorldState.empty).1 (str "fruit3")
            (str "not json")).1.entries.filter
            fun e => keyLe (str "fruit0") e.1 && keyLt e.1 (str "fruit99")).map Prod.fst ∧
        { Key := str "fruit3", Record := (json.Unmarshal (str "not json") Fruit.zero).1 } ∈
          rs ∧
        ((json.Unmarshal (str "not json") Fruit.zero).2 = some JsonError.SyntaxError →
          { Key := str "fruit3", Record := Fruit.zero } ∈ rs) :=
  ⟨by decide, by decide, by decide, by decide,
   QueryAllfruits_drops_decode_error
     (PutState (InitLedger WorldState.empty).1 (str "fruit3") (str "not json")).1
     (str "fruit3") (str "not json") (by decide) (by decide) (by decide) (by decide)⟩

/-- C8 (ordering). For every world state, `QueryAllfruits` succeeds; the keys of the
results are in strictly ascending lexicographic order (so no key is repeated); and the
results are, in that order, exactly the entries of the state whose key lies in the scanned
range `["fruit0", "fruit99")`, each carrying the record decoded from the bytes of its
entry. -/
theorem QueryAllfruits_ordered (ws : WorldState) :
    ∃ rs, QueryAllfruits ws = .ok rs ∧
      rs.Pairwise (fun a b => keyLt a.Key b.Key = true) ∧
      rs = (ws.entries.filter fun e =>
          keyLe (str "fruit0") e.1 && keyLt e.1 (str "fruit99")).map
        (fun e => { Key := e.1, Record := (json.Unmarshal e.2 Fruit.zero).1 }) ∧
      ∀ r, r ∈ rs ↔
        ∃ v, (r.Key, v) ∈ ws.entries ∧ keyLe (str "fruit0") r.Key = true ∧
          keyLt r.Key (str "fruit99") = true ∧
          r.Record = (json.Unmarshal v Fruit.zero).1 := by
  refine ⟨_, QueryAllfruits_eq ws, ?_, rfl, ?_⟩
  · rw [List.pairwise_map]
    exact List.Pairwise.sublist (List.filter_sublist _) ws.ascending
  · intro r
    constructor
    · intro hr
      obtain ⟨e, he, rfl⟩ := List.mem_map.1 hr
      have hf := List.mem_filter.1 he
      have hb : keyLe (str "fruit0") e.1 = true ∧ keyLt e.1 (str "fruit99") = true := by
        simpa using hf.2
      exact ⟨e.2, hf.1, hb.1, hb.2, rfl⟩
    · rintro ⟨v, hv, hlo, hhi, hrec⟩
      refine List.mem_map.2 ⟨(r.Key, v), List.mem_filter.2 ⟨hv, by simp [hlo, hhi]⟩, ?_⟩
      cases r
      simp only at hrec
      simp [hrec]

theorem InitLedger_loop_cons (i : Nat) (fruit : Fruit) (rest : List Fruit) (ws : WorldState)
    (hk : str "fruit" ++ strconv.Itoa i ≠ []) :
    InitLedger.loop i (fruit :: rest) ws =
      InitLedger.loop (i + 1) rest
        (PutState ws (str "fruit" ++ strconv.Itoa i) (json.Marshal fruit).1).1 := by
  have h := PutState_error ws (json.Marshal fruit).1 hk
  rw [InitLedger.loop]
  generalize PutState ws (str "fruit" ++ strconv.Itoa i) (json.Marshal fruit).1 = p at h
  obtain ⟨s, e⟩ := p
  simp only at h
  subst h
  rfl

/-- The state `InitLedger` leaves: five writes, one after the other. -/
theorem InitLedger_eq (ws : WorldState) :
    InitLedger ws =
      ((PutState (PutState (PutState (PutState (PutState ws
        (str "fruit0") (json.Marshal ⟨str "1", str "Grape", str "South Africa",
          str "2020/07/01", str "Walmart"⟩).1).1
        (str "fruit1") (json.Marshal ⟨str "2", str "Banana", str "Filipino",
          str "2020/07/01", str "Provigo"⟩).1).1
        (str "fruit2") (json.Marshal ⟨str "3", str "Apple", str "China",
          str "2020/07/01", str "Walmart"⟩).1).1
        (str "fruit3") (json.Marshal ⟨str "4", str "Strawberry", str "USA",
          str "2020/07/01", str "Walmart"⟩).1).1
        (str "fruit4") (json.Marshal ⟨str "5", str "Blueberry", str "Canada",
          str "2020/07/01", str "Provigo"⟩).1).1,
       none) := by
  unfold InitLedger seedFruits
  rw [InitLedger_loop_cons _ _ _ _ (by decide), InitLedger_loop_cons _ _ _ _ (by decide),
    InitLedger_loop_cons _ _ _ _ (by decide), InitLedger_loop_cons _ _ _ _ (by decide),
    InitLedger_loop_cons _ _ _ _ (by decide)]
  rfl

theorem Queryfruit_InitLedger (ws : WorldState) :
    (List.range 5).map
        (fun i => Queryfruit (InitLedger ws).1 (str "fruit" ++ strconv.Itoa i)) =
      seedFruits.map Except.ok := by
  have e0 : str "fruit" ++ strconv.Itoa 0 = str "fruit0" := by decide
  have e1 : str "fruit" ++ strconv.Itoa 1 = str "fruit1" := by decide
  have e2 : str "fruit" ++ strconv.Itoa 2 = str "fruit2" := by decide
  have e3 : str "fruit" ++ strconv.Itoa 3 = str "fruit3" := by decide
  have e4 : str "fruit" ++ strconv.Itoa 4 = str "fruit4" := by decide
  have hq : ∀ (s : WorldState) (k k1 : Bytes) (f : Fruit) (v : Bytes), k1 ≠ k →
      Queryfruit s k1 = .ok f → Queryfruit (PutState s k v).1 k1 = .ok f := by
    intro s k k1 f v hne h
    simpa [Queryfruit, GetState_PutState_other v hne] using h
  have hm : ∀ (s : WorldState) (k : Bytes) (a b c d e : String), k ≠ [] →
      Queryfruit (PutState s k (json.Marshal ⟨str a, str b, str c, str d, str e⟩).1).1 k =
        .ok ⟨str a, str b, str c, str d, str e⟩ := by
    intro s k a b c d e hk
    rw [Queryfruit_PutState_Marshal _ hk]
    simp only [Fruit.coerce, coerce_str]
  simp only [InitLedger_eq, List.range, List.range.loop, List.map, e0, e1, e2, e3, e4,
    seedFruits]
  rw [hq _ _ _ _ _ (by decide) (hq _ _ _ _ _ (by decide) (hq _ _ _ _ _ (by decide)
        (hq _ _ _ _ _ (by decide) (hm _ _ "1" "Grape" "South Africa" "2020/07/01" "Walmart"
          (by decide))))),
    hq _ _ _ _ _ (by decide) (hq _ _ _ _ _ (by decide) (hq _ _ _ _ _ (by decide)
        (hm _ _ "2" "Banana" "Filipino" "2020/07/01" "Provigo" (by decide)))),
    hq _ _ _ _ _ (by decide) (hq _ _ _ _ _ (by decide)
        (hm _ _ "3" "Apple" "China" "2020/07/01" "Walmart" (by decide))),
    hq _ _ _ _ _ (by decide) (hm _ _ "4" "Strawberry" "USA" "2020/07/01" "Walmart"
      (by decide)),
    hm _ _ "5" "Blueberry" "Canada" "2020/07/01" "Provigo" (by decide)]

theorem InitLedger_of_seeded (s : WorldState)
    (h0 : GetState s (str "fruit0") =
      .ok (some (json.Marshal ⟨str "1", str "Grape", str "South Africa", str "2020/07/01",
        str "Walmart"⟩).1))
    (h1 : GetState s (str "fruit1") =
      .ok (some (json.Marshal ⟨str "2", str "Banana", str "Filipino", str "2020/07/01",
        str "Provigo"⟩).1))
    (h2 : GetState s (str "fruit2") =
      .ok (some (json.Marshal ⟨str "3", str "Apple", str "China", str "2020/07/01",
        str "Walmart"⟩).1))
    (h3 : GetState s (str "fruit3") =
      .ok (some (json.Marshal ⟨str "4", str "Strawberry", str "USA", str "2020/07/01",
        str "Walmart"⟩).1))
    (h4 : GetState s (str "fruit4") =
      .ok (some (json.Marshal ⟨str "5", str "Blueberry", str "Canada", str "2020/07/01",
        str "Provigo"⟩).1)) :
    InitLedger s = (s, none) := by
  rw [InitLedger_eq s, PutState_of_GetState h0, PutState_of_GetState h1,
    PutState_of_GetState h2, PutState_of_GetState h3, PutState_of_GetState h4]

theorem InitLedger_idempotent (ws : WorldState) :
    InitLedger (InitLedger ws).1 = InitLedger ws := by
  have hg : ∀ (s : WorldState) (k k1 v v1 : Bytes), k1 ≠ k →
      GetState s k1 = .ok (some v1) → GetState (PutState s k v).1 k1 = .ok (some v1) := by
    intro s k k1 v v1 hne h
    rw [GetState_PutState_other v hne, h]
  have hs : (InitLedger ws).2 = none := by rw [InitLedger_eq]
  have hi : InitLedger (InitLedger ws).1 = ((InitLedger ws).1, none) := by
    apply InitLedger_of_seeded <;> rw [InitLedger_eq ws]
    · exact hg _ _ _ _ _ (by decide) (hg _ _ _ _ _ (by decide)
        (hg _ _ _ _ _ (by decide) (hg _ _ _ _ _ (by decide)
          (GetState_PutState_same _ (by decide)))))
    · exact hg _ _ _ _ _ (by decide) (hg _ _ _ _ _ (by decide)
        (hg _ _ _ _ _ (by decide) (GetState_PutState_same _ (by decide))))
    · exact hg _ _ _ _ _ (by decide) (hg _ _ _ _ _ (by decide)
        (GetState_PutState_same _ (by decide)))
    · exact hg _ _ _ _ _ (by decide) (GetState_PutState_same _ (by decide))
    · exact GetState_PutState_same _ (by decide)
  rw [hi, ← hs]

/-- C4, as the claim states it, fails: after `InitLedger` on the empty world state the
five records are stored under `fruit0` to `fruit4`, and nothing is stored under
`record0`. -/
theorem InitLedger_keys_counterexample :
    (InitLedger WorldState.empty).1.entries.map Prod.fst =
        [str "fruit0", str "fruit1", str "fruit2", str "fruit3", str "fruit4"] ∧
      GetState (InitLedger WorldState.empty).1 (str "record0") = .ok none ∧
      Queryfruit (InitLedger WorldState.empty).1 (str "record0") =
        .error (GoError.errorf (str "record0 does not exist")) := by
  decide

/-- C4 (amended). Starting from an empty world state, `InitLedger` succeeds and leaves
exactly 5 records, stored under the keys `fruit0`, `fruit1`, `fruit2`, `fruit3`, `fruit4`,
holding in that order the seed records; and from every world state `InitLedger` succeeds,
a second call yields the same state as one call, and the records read back at the five
keys are the seed records, whatever those keys held before. -/
theorem InitLedger_seeds :
    ((InitLedger WorldState.empty).2 = none ∧
      (InitLedger WorldState.empty).1.entries.map Prod.fst =
        [str "fruit0", str "fruit1", str "fruit2", str "fruit3", str "fruit4"] ∧
      (InitLedger WorldState.empty).1.entries.map
          (fun e => (json.Unmarshal e.2 Fruit.zero).1) = seedFruits) ∧
    ∀ ws : WorldState,
      (InitLedger ws).2 = none ∧
      InitLedger (InitLedger ws).1 = InitLedger ws ∧
      (List.range 5).map
          (fun i => Queryfruit (InitLedger ws).1 (str "fruit" ++ strconv.Itoa i)) =
        seedFruits.map Except.ok := by
  refine ⟨by decide, fun ws => ⟨?_, InitLedger_idempotent ws, Queryfruit_InitLedger ws⟩⟩
  rw [InitLedger_eq]

end FabCar
